import Mathlib

/-! Verification of the schema-flattening / relational-normalization core of
`ddl_enriched.py` (Avro Schema Analyzer).  The Python source is shallowly
embedded: Avro schema objects become the inductive `AvroType`, the walker
tuples become `PathInfo`, Python dicts become association lists with
insertion-order semantics, and the string-building DDL handler becomes
string-valued Lean functions.  Python's `str` operations used by the source
(`startswith`, `replace`, `re.sub` with the two fixed patterns, `lower`)
are modelled on `List Char`; `lower` is modelled on its ASCII fragment,
which is the fragment exercised by the `[a-z0-9_]` naming contract.
-/

namespace DdlEnriched

/-- Models Python `s.startswith(pat)` on char lists: `pat` is a leading
segment of `l`. -/
def isLeadOf : List Char → List Char → Bool
  | [], _ => true
  | _ :: _, [] => false
  | a :: as, b :: bs => a == b && isLeadOf as bs

/-- Models Python `s.startswith(pat)`. -/
def strStartsWith (s pat : String) : Bool :=
  isLeadOf pat.data s.data

/-- Models Python `s.replace(pat, rep)` (all non-overlapping occurrences,
scanning left to right) on char lists.  The `fuel` argument only bounds the
scan structurally; it is called with `fuel = l.length`, which is never
exhausted because every step consumes at least one character. -/
def replaceAllGo (pat rep : List Char) : Nat → List Char → List Char
  | _, [] => []
  | 0, l => l
  | fuel + 1, c :: rest =>
    if pat ≠ [] ∧ isLeadOf pat (c :: rest) then
      rep ++ replaceAllGo pat rep fuel ((c :: rest).drop pat.length)
    else
      c :: replaceAllGo pat rep fuel rest

/-- Models Python `s.replace(pat, rep)`. -/
def strReplace (s pat rep : String) : String :=
  String.mk (replaceAllGo pat.data rep.data s.data.length s.data)

/-- Models Python `re.sub(r'\[\].item', '', path)` (the `.` in the pattern
is the regex wildcard, which matches any character except a newline):
removes every occurrence of `'['`, `']'`, any non-newline character,
`'i'`, `'t'`, `'e'`, `'m'`, scanning left to right. -/
def removeArrayMarker : List Char → List Char
  | '[' :: ']' :: c :: 'i' :: 't' :: 'e' :: 'm' :: rest =>
    if c = '\n' then
      -- the wildcard does not match a newline: no match starts here, and no
      -- match can start inside the next six characters (none of them is '[')
      '[' :: ']' :: c :: 'i' :: 't' :: 'e' :: 'm' :: removeArrayMarker rest
    else
      removeArrayMarker rest
  | c :: rest => c :: removeArrayMarker rest
  | [] => []

/-- Models Python `re.sub(r'([a-z0-9])([A-Z])', r'\1_\2', s)`: inserts an
underscore between an ASCII lowercase letter or digit and an ASCII
uppercase letter, scanning left to right over non-overlapping matches. -/
def camelToSnake : List Char → List Char
  | a :: b :: rest =>
    if ((97 ≤ a.toNat && a.toNat ≤ 122) || (48 ≤ a.toNat && a.toNat ≤ 57)) &&
        (65 ≤ b.toNat && b.toNat ≤ 90) then
      a :: '_' :: b :: camelToSnake rest
    else
      a :: camelToSnake (b :: rest)
  | l => l

/-- ASCII fragment of Python `str.lower`. -/
def lowerChar (c : Char) : Char :=
  if 65 ≤ c.toNat && c.toNat ≤ 90 then Char.ofNat (c.toNat + 32) else c

/-- The character class `[a-z0-9_]` kept by the final strip of
`get_column_name`. -/
def allowedChar (c : Char) : Bool :=
  (97 ≤ c.toNat && c.toNat ≤ 122) || (48 ≤ c.toNat && c.toNat ≤ 57) ||
    c.toNat == 95

/-- Models `get_column_name` (src lines 88-97): strips `[].item` markers, converts
camelCase boundaries, lowercases, replaces dots with underscores, and strips
everything outside `[a-z0-9_]`. -/
def get_column_name (field_path : String) : String :=
  let clean := removeArrayMarker field_path.data
  let snake := (camelToSnake clean).map lowerChar
  let dotted := snake.map (fun c => if c = '.' then '_' else c)
  String.mk (dotted.filter allowedChar)


/-- Parsed Avro schema objects as consumed by the walkers: a record has an
ordered list of fields `(name, doc, type)`, an array has an item type, a
union a branch list, an enum a symbol list, and a primitive a base-type tag
plus an optional logical type.  `avro.schema.Field.doc` that is `None` is
modelled as `""` (both are falsy where the source tests `if doc:`). -/
inductive AvroType : Type where
  | record (fullname : String) (fields : List (String × String × AvroType))
  | arr (items : AvroType)
  | union (branches : List AvroType)
  | enm (symbols : List String)
  | prim (base : String) (logicalType : Option String)

/-- The `.type` attribute of an avro schema object. -/
def typeName : AvroType → String
  | .record _ _ => "record"
  | .arr _ => "array"
  | .union _ => "union"
  | .enm _ => "enum"
  | .prim base _ => base

/-- The fifth tuple component of a walker entry: absent (4-tuples for
unflattened arrays), an enum symbol list, or a logical type (`None` or a
string). -/
inductive Extra : Type where
  | noExtra
  | enumVals (symbols : List String)
  | logical (lt : Option String)
deriving DecidableEq, Repr

/-- One entry of the flat path list produced by `extract_field_paths` with
`include_types=True`: `(path, field_type, doc, is_optional)` plus the
optional fifth component. -/
structure PathInfo : Type where
  path : String
  ftype : String
  doc : String
  optional : Bool
  extra : Extra
deriving DecidableEq, Repr

/-- Union resolution of `extract_field_paths` (src lines 139-149): the first
branch whose `.type` is not `"null"` with `is_optional=True`; if every
branch is null, the first branch with `is_optional=False`.  For non-unions
the type itself with `is_optional=False`.  (An empty union makes the Python
raise `IndexError`; the model returns the union itself, and no theorem
relies on that case.) -/
def resolveUnionExtract : AvroType → AvroType × Bool
  | .union bs =>
    match bs.filter (fun t => typeName t != "null") with
    | t :: _ => (t, true)
    | [] =>
      match bs with
      | b :: _ => (b, false)
      | [] => (.union bs, false)
  | t => (t, false)

/-- Union resolution of `find_array_fields` (src lines 201-204): the first
non-null branch if one exists, otherwise the union itself is left in place
(the source only reassigns `sub_schema` when `non_null_types` is                non-empty). -/
def resolveUnionFind : AvroType → AvroType
  | .union bs =>
    match bs.filter (fun t => typeName t != "null") with
    | t :: _ => t
    | [] => .union bs
  | t => t


mutual

/-- The Schema Walker `extract_field_paths` (src lines 119-180) with `include_types=True`:
the Schema Walker.  Non-record schemas yield no entries; a record walks its
fields in order. -/
def extract_field_paths : AvroType → String → List String → List PathInfo
  | .record _ fields, pre, arrayPaths => extractFields fields pre arrayPaths
  | _, _, _ => []
termination_by s _ _ => sizeOf s
decreasing_by
  simp

/-- The per-field body of the Schema Walker's loop over `schema_obj.fields`. -/
def extractFields : List (String × String × AvroType) → String → List String → List PathInfo
  | [], _, _ => []
  | (name, doc, ty) :: rest, pre, arrayPaths =>
    (match h : resolveUnionExtract ty with
     | (.record fn fs, _) =>
       extract_field_paths (.record fn fs)
         (if pre == "" then name else pre ++ "." ++ name) arrayPaths
     | (.arr items, isOpt) =>
       if (if pre == "" then name else pre ++ "." ++ name) ∈ arrayPaths then
         extract_field_paths items
           ((if pre == "" then name else pre ++ "." ++ name) ++ "[].item") arrayPaths
       else
         [⟨(if pre == "" then name else pre ++ "." ++ name) ++ "[]", "array", doc, isOpt, .noExtra⟩]
     | (.enm syms, isOpt) =>
       [⟨(if pre == "" then name else pre ++ "." ++ name), "enum", doc, isOpt, .enumVals syms⟩]
     | (.union _, isOpt) =>
       [⟨(if pre == "" then name else pre ++ "." ++ name), "union", doc, isOpt, .logical none⟩]
     | (.prim base lt, isOpt) =>
       [⟨(if pre == "" then name else pre ++ "." ++ name), base, doc, isOpt, .logical lt⟩]) ++
    extractFields rest pre arrayPaths
termination_by l _ _ => sizeOf l
decreasing_by
  · have hle : sizeOf (resolveUnionExtract ty).1 ≤ sizeOf ty := by
      cases ty with
      | union bs =>
        simp only [resolveUnionExtract]
        cases hf : bs.filter (fun t => typeName t != "null") with
        | cons x xs =>
          have hx : x ∈ bs :=
            List.mem_of_mem_filter (hf ▸ List.mem_cons_self x xs)
          have hlt := List.sizeOf_lt_of_mem hx
          simp only [AvroType.union.sizeOf_spec]
          omega
        | nil =>
          cases bs with
          | nil => simp
          | cons b bs2 =>
            have hlt := List.sizeOf_lt_of_mem (List.mem_cons_self b bs2)
            simp only [AvroType.union.sizeOf_spec]
            omega
      | record fullname fields => simp [resolveUnionExtract]
      | arr items => simp [resolveUnionExtract]
      | enm symbols => simp [resolveUnionExtract]
      | prim base lt => simp [resolveUnionExtract]
    rw [h] at hle
    simp at hle ⊢
    omega
  · have hle : sizeOf (resolveUnionExtract ty).1 ≤ sizeOf ty := by
      cases ty with
      | union bs =>
        simp only [resolveUnionExtract]
        cases hf : bs.filter (fun t => typeName t != "null") with
        | cons x xs =>
          have hx : x ∈ bs :=
            List.mem_of_mem_filter (hf ▸ List.mem_cons_self x xs)
          have hlt := List.sizeOf_lt_of_mem hx
          simp only [AvroType.union.sizeOf_spec]
          omega
        | nil =>
          cases bs with
          | nil => simp
          | cons b bs2 =>
            have hlt := List.sizeOf_lt_of_mem (List.mem_cons_self b bs2)
            simp only [AvroType.union.sizeOf_spec]
            omega
      | record fullname fields => simp [resolveUnionExtract]
      | arr items => simp [resolveUnionExtract]
      | enm symbols => simp [resolveUnionExtract]
      | prim base lt => simp [resolveUnionExtract]
    rw [h] at hle
    simp at hle ⊢
    omega
  · simp

end

mutual

/-- Array Discovery `find_array_fields` (src lines 184-216).  Every array
field reached is reported; recursion into an array's items happens only when
its path is in `parentArrays`. -/
def find_array_fields : AvroType → String → List String → List String
  | .record _ fields, pre, parentArrays => findFields fields pre parentArrays
  | _, _, _ => []
termination_by s _ _ => sizeOf s
decreasing_by
  simp

/-- The per-field body of Array Discovery's loop over `schema_obj.fields`. -/
def findFields : List (String × String × AvroType) → String → List String → List String
  | [], _, _ => []
  | (name, _, ty) :: rest, pre, parentArrays =>
    (match h : resolveUnionFind ty with
     | .record fn fs =>
       find_array_fields (.record fn fs)
         (if pre == "" then name else pre ++ "." ++ name) parentArrays
     | .arr items =>
       (if pre == "" then name else pre ++ "." ++ name) ::
       (if (if pre == "" then name else pre ++ "." ++ name) ∈ parentArrays then
          find_array_fields items
            ((if pre == "" then name else pre ++ "." ++ name) ++ "[].item") parentArrays
        else [])
     | _ => []) ++
    findFields rest pre parentArrays
termination_by l _ _ => sizeOf l
decreasing_by
  · have hle : sizeOf (resolveUnionFind ty) ≤ sizeOf ty := by
      cases ty with
      | union bs =>
        simp only [resolveUnionFind]
        cases hf : bs.filter (fun t => typeName t != "null") with
        | cons x xs =>
          have hx : x ∈ bs :=
            List.mem_of_mem_filter (hf ▸ List.mem_cons_self x xs)
          have hlt := List.sizeOf_lt_of_mem hx
          simp only [AvroType.union.sizeOf_spec]
          omega
        | nil => simp
      | record fullname fields => simp [resolveUnionFind]
      | arr items => simp [resolveUnionFind]
      | enm symbols => simp [resolveUnionFind]
      | prim base lt => simp [resolveUnionFind]
    rw [h] at hle
    simp at hle ⊢
    omega
  · have hle : sizeOf (resolveUnionFind ty) ≤ sizeOf ty := by
      cases ty with
      | union bs =>
        simp only [resolveUnionFind]
        cases hf : bs.filter (fun t => typeName t != "null") with
        | cons x xs =>
          have hx : x ∈ bs :=
            List.mem_of_mem_filter (hf ▸ List.mem_cons_self x xs)
          have hlt := List.sizeOf_lt_of_mem hx
          simp only [AvroType.union.sizeOf_spec]
          omega
        | nil => simp
      | record fullname fields => simp [resolveUnionFind]
      | arr items => simp [resolveUnionFind]
      | enm symbols => simp [resolveUnionFind]
      | prim base lt => simp [resolveUnionFind]
    rw [h] at hle
    simp at hle ⊢
    omega
  · simp

end

/-- A Python dict from array path to field list, with insertion-order
semantics: lookup finds the unique binding, appending to an absent key adds
a new binding at the end. -/
abbrev Dict := List (String × List PathInfo)

/-- Lookup `array_tables[k]`; the `[]` default is never reached in the source flow
(the second pass of `build_table_hierarchy` seeds every selected path). -/
def dictGetD (d : Dict) (k : String) : List PathInfo :=
  (List.lookup k d).getD []

/-- Append semantics `array_tables.setdefault(k, []).append(v)` — the source's
`if k not in array_tables: array_tables[k] = []` followed by
`array_tables[k].append(v)`. -/
def dictAppend (d : Dict) (k : String) (v : PathInfo) : Dict :=
  match d with
  | [] => [(k, [v])]
  | (k2, vs) :: rest =>
    if k2 == k then (k2, vs ++ [v]) :: rest else (k2, vs) :: dictAppend rest k v

/-- Seeding, the source's `if k not in array_tables: array_tables[k] = []`. -/
def dictEnsure (d : Dict) (k : String) : Dict :=
  match d with
  | [] => [(k, [])]
  | (k2, vs) :: rest =>
    if k2 == k then (k2, vs) :: rest else (k2, vs) :: dictEnsure rest k

/-- Result of `build_table_hierarchy`: the root field list and the dict of
array tables. -/
structure TableStructure where
  root_table : List PathInfo
  array_tables : Dict
deriving DecidableEq, Repr

/-- First pass of `build_table_hierarchy` (src lines 286-303), one
`path_info`: the inner `for array_path in selected_arrays` loop with its
`break` assigns the leaf to the first selected array whose
`array_path + "[].item"` is a leading segment of the leaf path, else to
the root list.  (The source's `isinstance(path_info, tuple) and
len(path_info) >= 4` guard is always true for `include_types=True`
entries.) -/
def assignLeaf (selected : List String) (acc : List PathInfo × Dict)
    (p : PathInfo) : List PathInfo × Dict :=
  match selected.find? (fun a => strStartsWith p.path (a ++ "[].item")) with
  | some a => (acc.1, dictAppend acc.2 a p)
  | none => (acc.1 ++ [p], acc.2)

/-- Innermost loop of the second pass (src lines 313-321): append every
path under `nested + "[].item"` to `array_tables[nested]`. -/
def phase2Nested (paths : List PathInfo) (d : Dict) (nested : String) : Dict :=
  paths.foldl
    (fun d2 p =>
      if strStartsWith p.path (nested ++ "[].item") then dictAppend d2 nested p
      else d2)
    d

/-- One step of the second pass's outer loop (src lines 306-321): seed
`array_tables[array_path]` and process every selected array nested under
`array_path`. -/
def phase2Step (selected : List String) (paths : List PathInfo) (d : Dict)
    (arrayPath : String) : Dict :=
  selected.foldl
    (fun d2 nested =>
      if strStartsWith nested (arrayPath ++ "[].item") && nested != arrayPath then
        phase2Nested paths d2 nested
      else d2)
    (dictEnsure d arrayPath)

/-- The Table Partitioner `build_table_hierarchy` (src lines 280-325): first pass assigns each
leaf to the first matching selected array (or root), second pass seeds all
selected arrays and re-appends leaves under nested selected arrays. -/
def build_table_hierarchy (paths : List PathInfo) (selected : List String) :
    TableStructure :=
  let r := paths.foldl (assignLeaf selected) ([], [])
  ⟨r.1, selected.foldl (phase2Step selected paths) r.2⟩

/-- The type map lookup `AVRO_TO_HIVE_TYPE.get` (src lines 72-85). -/
def AVRO_TO_HIVE_TYPE_get (k : String) : Option String :=
  if k = "string" then some "VARCHAR(255)"
  else if k = "int" then some "INT"
  else if k = "long" then some "BIGINT"
  else if k = "float" then some "FLOAT"
  else if k = "double" then some "DOUBLE"
  else if k = "boolean" then some "BOOLEAN"
  else if k = "bytes" then some "BINARY"
  else if k = "null" then some "NULL"
  else if k = "timestamp-millis" then some "TIMESTAMP"
  else if k = "date" then some "DATE"
  else if k = "time-millis" then some "VARCHAR(30)"
  else if k = "enum" then some "VARCHAR(100)"
  else none

/-- Type mapping `avro_to_hive_type` (src lines 480-501).  A list fifth component (enum
symbol values) selects the enum type; a truthy string logical type is
looked up; otherwise the field type is looked up; a field type `"enum"`
overrides with `AVRO_TO_HIVE_TYPE['enum']`. -/
def avro_to_hive_type (f : PathInfo) : String :=
  let hive :=
    match f.extra with
    | .enumVals _ => (AVRO_TO_HIVE_TYPE_get "enum").getD "STRING"
    | .logical (some lt) =>
      if lt ≠ "" then (AVRO_TO_HIVE_TYPE_get lt).getD "STRING"
      else (AVRO_TO_HIVE_TYPE_get f.ftype).getD "STRING"
    | .logical none => (AVRO_TO_HIVE_TYPE_get f.ftype).getD "STRING"
    | .noExtra => (AVRO_TO_HIVE_TYPE_get f.ftype).getD "STRING"
  if f.ftype == "enum" then (AVRO_TO_HIVE_TYPE_get "enum").getD "STRING"
  else hive

/-- The value `natural_key_col_name` as computed by the root-table loop (src lines
511-521): the column name of the last root field whose path equals the
selected natural key, `""` if none matches. -/
def natural_key_col_name (rootFields : List PathInfo) (naturalKey : String) :
    String :=
  rootFields.foldl
    (fun acc f => if f.path == naturalKey then get_column_name f.path else acc)
    ""

/-- An entry of `parent_child_relations` (src lines 472-475). -/
structure RelChoice where
  parent : String
  choice : String
deriving DecidableEq, Repr

/-- The `parent_array` / `is_nested_array` scan (src lines 573-579): the
longest selected array whose `pp + "[].item"` leads `arrayPath`, kept with
Python truthiness (`not parent_array` re-assigns when the current best is
`None` or `""`). -/
def findParentArray (selected : List String) (arrayPath : String) :
    Option String :=
  selected.foldl
    (fun acc pp =>
      if arrayPath != pp && strStartsWith arrayPath (pp ++ "[].item") then
        match acc with
        | none => some pp
        | some cur => if cur == "" || pp.length > cur.length then some pp else acc
      else acc)
    none

/-- Foreign-key column bound to a parent array table (src lines 582-597 and
602-618): looked up in `array_tables[p]`, with the `VARCHAR(255)` fallback
when the key path has no matching field. -/
def emitArrayFK (rootTableName : String) (arrayTables : Dict) (p kp : String) :
    String :=
  let parentKeyColumn := get_column_name (strReplace kp (p ++ ".") "")
  let parentTable := rootTableName ++ "_" ++ get_column_name p
  match (dictGetD arrayTables p).find? (fun f => f.path == kp) with
  | some fi =>
    "  " ++ parentKeyColumn ++ " " ++ avro_to_hive_type fi ++
      " COMMENT 'Foreign key to " ++ parentTable ++ "',\n"
  | none =>
    "  " ++ parentKeyColumn ++ " VARCHAR(255) COMMENT 'Foreign key to " ++
      parentTable ++ "',\n"

/-- Foreign-key column bound to the root table (src lines 619-631 and
632-644), with the `VARCHAR(255)` fallback when the natural key has no
matching root field. -/
def emitRootFK (rootTableName : String) (rootFields : List PathInfo)
    (naturalKey naturalKeyColName : String) : String :=
  match rootFields.find? (fun f => f.path == naturalKey) with
  | some fi =>
    "  " ++ naturalKeyColName ++ " " ++ avro_to_hive_type fi ++
      " COMMENT 'Foreign key to " ++ rootTableName ++ "',\n"
  | none =>
    "  " ++ naturalKeyColName ++ " VARCHAR(255) COMMENT 'Foreign key to " ++
      rootTableName ++ "',\n"

/-- The `elif array_path in parent_child_relations` / `else` chain (src
lines 600-644): an explicit relation choosing the parent array's key binds
to that parent when it has a natural key, every other case binds to the
root table. -/
def fkExplicitOrRoot (rootTableName : String)
    (arrayNaturalKeys : List (String × String))
    (parentChildRelations : List (String × RelChoice)) (arrayTables : Dict)
    (rootFields : List PathInfo) (naturalKey naturalKeyColName : String)
    (arrayPath : String) : String :=
  match List.lookup arrayPath parentChildRelations with
  | some rel =>
    if rel.choice = "Parent array's key" then
      match List.lookup rel.parent arrayNaturalKeys with
      | some kp => emitArrayFK rootTableName arrayTables rel.parent kp
      | none => emitRootFK rootTableName rootFields naturalKey naturalKeyColName
    else emitRootFK rootTableName rootFields naturalKey naturalKeyColName
  | none => emitRootFK rootTableName rootFields naturalKey naturalKeyColName

/-- The whole foreign-key resolution for one array table (src lines
569-644): the nested-array scan takes precedence — only when the array has
no truthy nested parent with a natural key does the explicit relation (or
the default root binding) apply. -/
def fkSection (rootTableName : String) (selected : List String)
    (arrayNaturalKeys : List (String × String))
    (parentChildRelations : List (String × RelChoice)) (arrayTables : Dict)
    (rootFields : List PathInfo) (naturalKey naturalKeyColName : String)
    (arrayPath : String) : String :=
  match findParentArray selected arrayPath with
  | some p =>
    if p ≠ "" then
      match List.lookup p arrayNaturalKeys with
      | some kp => emitArrayFK rootTableName arrayTables p kp
      | none =>
        fkExplicitOrRoot rootTableName arrayNaturalKeys parentChildRelations
          arrayTables rootFields naturalKey naturalKeyColName arrayPath
    else
      fkExplicitOrRoot rootTableName arrayNaturalKeys parentChildRelations
        arrayTables rootFields naturalKey naturalKeyColName arrayPath
  | none =>
    fkExplicitOrRoot rootTableName arrayNaturalKeys parentChildRelations
      arrayTables rootFields naturalKey naturalKeyColName arrayPath

/-- The natural-key column of an array table (src lines 646-652): emitted
only when a key is selected for the table and its path matches a field. -/
def natural_key_section (arrayNaturalKeys : List (String × String))
    (arrayPath : String) (fields : List PathInfo) : String :=
  match List.lookup arrayPath arrayNaturalKeys with
  | some akp =>
    match fields.find? (fun f => f.path == akp) with
    | some aki =>
      "  " ++ get_column_name (strReplace akp (arrayPath ++ ".") "") ++ " " ++
        avro_to_hive_type aki ++ " COMMENT 'Natural key for this array',\n"
    | none => ""
  | none => ""

/-- One data column of an array table (src lines 663-687). -/
def field_line (arrayPath : String) (f : PathInfo) : String :=
  let columnName := get_column_name (strReplace f.path (arrayPath ++ ".") "")
  if f.ftype == "array" then
    "  " ++ columnName ++ "_json STRING" ++
      (if f.doc != "" then " COMMENT 'JSON array: " ++ f.doc ++ "'" else "") ++
      ",\n"
  else if f.ftype == "record" then
    "  " ++ columnName ++ "_json STRING" ++
      (if f.doc != "" then " COMMENT 'JSON object: " ++ f.doc ++ "'" else "") ++
      ",\n"
  else
    "  " ++ columnName ++ " " ++ avro_to_hive_type f ++
      (if f.doc != "" then " COMMENT '" ++ f.doc ++ "'" else "") ++ ",\n"

/-- The skip guard of the data-column loop (src lines 659-661): a field is
skipped when its path is the table's selected natural key. -/
def skip_as_key (arrayNaturalKeys : List (String × String))
    (arrayPath : String) (f : PathInfo) : Bool :=
  match List.lookup arrayPath arrayNaturalKeys with
  | some akp => f.path == akp
  | none => false

/-- The data-column loop of an array table (src lines 654-687). -/
def fields_section (arrayNaturalKeys : List (String × String))
    (arrayPath : String) (fields : List PathInfo) : String :=
  fields.foldl
    (fun acc f =>
      if skip_as_key arrayNaturalKeys arrayPath f then acc
      else acc ++ field_line arrayPath f)
    ""

/-- The common-field lines shared by every table (src lines 507-508 and
566-567). -/
def common_section (commonFieldsList : List (String × String)) : String :=
  commonFieldsList.foldl
    (fun acc nt => acc ++ "  " ++ nt.1 ++ " " ++ nt.2 ++ ",\n")
    ""

/-- Models Python `s.endswith(suf)`. -/
def strEndsWith (s suf : String) : Bool :=
  isLeadOf suf.data.reverse s.data.reverse

/-- Models Python `s[:-n]` for `n ≤ len(s)`. -/
def strDropRight (s : String) (n : Nat) : String :=
  String.mk (s.data.take (s.data.length - n))

/-- The full `CREATE TABLE` statement of one array table (src lines
558-693): common fields, the resolved foreign-key column, the natural-key
column, the data columns, with the trailing comma trimmed. -/
def array_table_ddl (rootTableName : String) (selected : List String)
    (arrayNaturalKeys : List (String × String))
    (parentChildRelations : List (String × RelChoice)) (arrayTables : Dict)
    (rootFields : List PathInfo) (naturalKey : String)
    (commonFieldsList : List (String × String)) (arrayPath : String)
    (fields : List PathInfo) : String :=
  let ddl :=
    "CREATE TABLE " ++ (rootTableName ++ "_" ++ get_column_name arrayPath) ++
      " (\n" ++
    common_section commonFieldsList ++
    fkSection rootTableName selected arrayNaturalKeys parentChildRelations
      arrayTables rootFields naturalKey
      (natural_key_col_name rootFields naturalKey) arrayPath ++
    natural_key_section arrayNaturalKeys arrayPath fields ++
    fields_section arrayNaturalKeys arrayPath fields
  (if strEndsWith ddl ",\n" then strDropRight ddl 2 else ddl) ++ "\n)"

/-- Characters that are guaranteed to survive the Path Namer pipeline:
`[a-z0-9_]`, the dot, and ASCII uppercase letters. -/
def surviving (c : Char) : Prop :=
  allowedChar c = true ∨ c = '.' ∨ (65 ≤ c.toNat ∧ c.toNat ≤ 90)

/-! Well-formedness: no primitive carries the reserved type tag
`"array"` (true of every parsed Avro schema, where primitives are the
fixed eight types). -/

mutual

def noPrimArray : AvroType → Bool
  | .record _ fields => noPrimArrayList fields
  | .arr items => noPrimArray items
  | .union bs => noPrimArrayUnion bs
  | .enm _ => true
  | .prim b _ => b != "array"

def noPrimArrayList : List (String × String × AvroType) → Bool
  | [] => true
  | (_, _, ty) :: rest => noPrimArray ty && noPrimArrayList rest

def noPrimArrayUnion : List AvroType → Bool
  | [] => true
  | t :: rest => noPrimArray t && noPrimArrayUnion rest

end

/-- Concrete item record `B { y : string }` for witnesses and
counterexamples. -/
def itemsB : AvroType := .record "B" [("y", "", .prim "string" none)]

/-- Concrete item record `A { x : string, b : array<B> }`. -/
def itemsA : AvroType :=
  .record "A" [("x", "", .prim "string" none), ("b", "", .arr itemsB)]

/-- Concrete root schema `R { id : string, a : array<A> }` with a nested
array. -/
def nestedSchema : AvroType :=
  .record "R" [("id", "", .prim "string" none), ("a", "", .arr itemsA)]

/-- The unnest policy selecting both arrays of `nestedSchema`, in discovery
order. -/
def nestedSelected : List String := ["a", "a[].item.b"]

/-- The walker output for `nestedSchema` under `nestedSelected`. -/
def nestedPaths : List PathInfo :=
  extract_field_paths nestedSchema "" nestedSelected


/-! Theorems.  First: size bounds over union resolution, and concrete
sanity checks of the Path Namer. -/

theorem sizeOf_lt_of_mem_union {t : AvroType} {bs : List AvroType}
    (h : t ∈ bs) : sizeOf t < sizeOf (AvroType.union bs) := by
  have := List.sizeOf_lt_of_mem h
  simp only [AvroType.union.sizeOf_spec]
  omega

theorem resolveUnionExtract_fst_le (t : AvroType) :
    sizeOf (resolveUnionExtract t).1 ≤ sizeOf t := by
  cases t with
  | union bs =>
    simp only [resolveUnionExtract]
    cases hf : bs.filter (fun t => typeName t != "null") with
    | cons x xs =>
      have hx : x ∈ bs :=
        List.mem_of_mem_filter (hf ▸ List.mem_cons_self x xs)
      exact Nat.le_of_lt (sizeOf_lt_of_mem_union hx)
    | nil =>
      cases bs with
      | nil => simp
      | cons b bs' =>
        exact Nat.le_of_lt (sizeOf_lt_of_mem_union (List.mem_cons_self b bs'))
  | record fullname fields => simp [resolveUnionExtract]
  | arr items => simp [resolveUnionExtract]
  | enm symbols => simp [resolveUnionExtract]
  | prim base lt => simp [resolveUnionExtract]

theorem resolveUnionFind_le (t : AvroType) :
    sizeOf (resolveUnionFind t) ≤ sizeOf t := by
  cases t with
  | union bs =>
    simp only [resolveUnionFind]
    cases hf : bs.filter (fun t => typeName t != "null") with
    | cons x xs =>
      have hx : x ∈ bs :=
        List.mem_of_mem_filter (hf ▸ List.mem_cons_self x xs)
      exact Nat.le_of_lt (sizeOf_lt_of_mem_union hx)
    | nil => simp
  | record fullname fields => simp [resolveUnionFind]
  | arr items => simp [resolveUnionFind]
  | enm symbols => simp [resolveUnionFind]
  | prim base lt => simp [resolveUnionFind]

example : get_column_name "orderId[].item.skuCode" = "order_id_sku_code" := by
  decide

example : get_column_name "a[].item.b" = "a_b" := by decide

/-! Path Namer lemmas (claims C8 and C9) -/

theorem allowedChar_ne_lbracket {c : Char} (h : allowedChar c = true) :
    c ≠ '[' :=
  fun hEq => absurd (hEq ▸ h) (by decide)

theorem removeArrayMarker_cons_of_ne (c : Char) (rest : List Char)
    (hc : c ≠ '[') :
    removeArrayMarker (c :: rest) = c :: removeArrayMarker rest := by
  conv_lhs => rw [removeArrayMarker.eq_def]
  split
  · rename_i heq
    exact absurd (List.cons.injEq .. ▸ congrArg id heq) (by simp [hc])
  · rename_i heq
    obtain ⟨rfl, rfl⟩ := List.cons.inj heq
    rfl
  · rename_i heq
    exact absurd heq (by simp)

theorem removeArrayMarker_id (l : List Char)
    (h : ∀ c ∈ l, allowedChar c = true) :
    removeArrayMarker l = l := by
  induction l with
  | nil => rfl
  | cons c rest ih =>
    rw [removeArrayMarker_cons_of_ne c rest
      (allowedChar_ne_lbracket (h c (List.mem_cons_self c rest)))]
    rw [ih (fun x hx => h x (List.mem_cons_of_mem _ hx))]

theorem camelToSnake_id (l : List Char)
    (h : ∀ c ∈ l, allowedChar c = true) :
    camelToSnake l = l := by
  induction l with
  | nil => rfl
  | cons a tail ih =>
    cases tail with
    | nil => rfl
    | cons b rest =>
      have hb := h b (by simp)
      have hcond : (((97 ≤ a.toNat && a.toNat ≤ 122) ||
          (48 ≤ a.toNat && a.toNat ≤ 57)) &&
          (65 ≤ b.toNat && b.toNat ≤ 90)) = false := by
        simp only [allowedChar, Bool.or_eq_true, Bool.and_eq_true,
          decide_eq_true_eq, beq_iff_eq] at hb
        simp only [Bool.and_eq_false_iff, Bool.or_eq_false_iff,
          Bool.and_eq_false_iff, decide_eq_false_iff_not, Nat.not_le]
        omega
      rw [camelToSnake, hcond]
      simp only [Bool.false_eq_true, if_false]
      rw [ih (fun x hx => h x (List.mem_cons_of_mem _ hx))]

theorem lowerChar_id {c : Char} (h : allowedChar c = true) :
    lowerChar c = c := by
  simp only [allowedChar, Bool.or_eq_true, Bool.and_eq_true,
    decide_eq_true_eq, beq_iff_eq] at h
  simp only [lowerChar, Bool.and_eq_true, decide_eq_true_eq]
  rw [if_neg]
  omega

theorem dotRepl_id {c : Char} (h : allowedChar c = true) :
    (if c = '.' then '_' else c) = c := by
  rw [if_neg]
  intro hEq
  exact absurd (hEq ▸ h) (by decide)

theorem get_column_name_data (s : String) :
    (get_column_name s).data =
      (((camelToSnake (removeArrayMarker s.data)).map lowerChar).map
        (fun c => if c = '.' then '_' else c)).filter allowedChar := rfl

/-- Every character of a Path Namer output is in `[a-z0-9_]`. -/
theorem get_column_name_allowed (s : String) :
    ∀ c ∈ (get_column_name s).data, allowedChar c = true := by
  intro c hc
  rw [get_column_name_data] at hc
  exact (List.mem_filter.mp hc).2

/-- C9: the Path Namer is idempotent. -/
theorem get_column_name_idem (s : String) :
    get_column_name (get_column_name s) = get_column_name s := by
  have hall := get_column_name_allowed s
  have h3 : ((get_column_name s).data).map lowerChar =
      (get_column_name s).data := by
    rw [List.map_congr_left (fun c hc => lowerChar_id (hall c hc))]
    exact List.map_id _
  have h4 : ((get_column_name s).data).map
      (fun c => if c = '.' then '_' else c) = (get_column_name s).data := by
    rw [List.map_congr_left (fun c hc => dotRepl_id (hall c hc))]
    exact List.map_id _
  have h5 : ((get_column_name s).data).filter allowedChar =
      (get_column_name s).data :=
    List.filter_eq_self.mpr hall
  have key : get_column_name (get_column_name s) =
      String.mk (((((camelToSnake
        (removeArrayMarker (get_column_name s).data)).map lowerChar).map
        (fun c => if c = '.' then '_' else c))).filter allowedChar) := rfl
  rw [key, removeArrayMarker_id _ hall, camelToSnake_id _ hall, h3, h4, h5]

theorem toNat_ofNat_of_valid {n : Nat} (h : n < 55296) :
    (Char.ofNat n).toNat = n := by
  rw [Char.ofNat, dif_pos (Or.inl h)]
  rfl

theorem mem_camelToSnake (c : Char) :
    ∀ (l : List Char), c ∈ l → c ∈ camelToSnake l := by
  have key : ∀ n (l : List Char), l.length ≤ n → c ∈ l → c ∈ camelToSnake l := by
    intro n
    induction n with
    | zero =>
      intro l hl hc
      cases l with
      | nil => simp at hc
      | cons a tail => simp at hl
    | succ n ih =>
      intro l hl hc
      cases l with
      | nil => simp at hc
      | cons a tail =>
        cases tail with
        | nil => simpa [camelToSnake] using hc
        | cons b rest =>
          rw [camelToSnake]
          split
          · rcases List.mem_cons.mp hc with rfl | hc2
            · exact List.mem_cons_self _ _
            rcases List.mem_cons.mp hc2 with rfl | hc3
            · simp
            · have hrest : c ∈ camelToSnake rest := by
                apply ih rest _ hc3
                simp at hl
                omega
              simp [hrest]
          · rcases List.mem_cons.mp hc with rfl | hc2
            · exact List.mem_cons_self _ _
            · have htail : c ∈ camelToSnake (b :: rest) := by
                apply ih (b :: rest) _ hc2
                simp at hl ⊢
                omega
              exact List.mem_cons_of_mem _ htail
  exact fun l => key l.length l (Nat.le_refl _)


theorem surviving_after (c : Char) (h : surviving c) :
    allowedChar (if lowerChar c = '.' then '_' else lowerChar c) = true := by
  rcases h with h | rfl | h
  · rw [lowerChar_id h, dotRepl_id h]
    exact h
  · decide
  · have hlc : lowerChar c = Char.ofNat (c.toNat + 32) := by
      rw [lowerChar, if_pos]
      simp only [Bool.and_eq_true, decide_eq_true_eq]
      omega
    have htn : (lowerChar c).toNat = c.toNat + 32 := by
      rw [hlc]
      exact toNat_ofNat_of_valid (by omega)
    have hne : lowerChar c ≠ '.' := by
      intro hEq
      rw [hEq] at htn
      simp at htn
      omega
    rw [if_neg hne]
    simp only [allowedChar, Bool.or_eq_true, Bool.and_eq_true,
      decide_eq_true_eq, beq_iff_eq]
    omega

/-- C8 (amended): every Path Namer output is lowercase over `[a-z0-9_]`
(matches `[a-z0-9_]*`), and it is non-empty whenever at least one character
of the marker-stripped input is an ASCII letter, digit, underscore, or
dot — which holds for every FieldPath built from valid Avro names.  The
original claim additionally required non-emptiness for every input string,
which fails (see the counterexample). -/
theorem c8_naming_contract (s : String) :
    (∀ c ∈ (get_column_name s).data, allowedChar c = true) ∧
    ((∃ c ∈ removeArrayMarker s.data, surviving c) →
      get_column_name s ≠ "") := by
  refine ⟨get_column_name_allowed s, ?_⟩
  rintro ⟨c, hc, hgood⟩ hEq
  have h1 : c ∈ camelToSnake (removeArrayMarker s.data) :=
    mem_camelToSnake c _ hc
  have h2 : lowerChar c ∈
      (camelToSnake (removeArrayMarker s.data)).map lowerChar :=
    List.mem_map_of_mem lowerChar h1
  have h3 : (if lowerChar c = '.' then '_' else lowerChar c) ∈
      ((camelToSnake (removeArrayMarker s.data)).map lowerChar).map
        (fun c => if c = '.' then '_' else c) :=
    List.mem_map_of_mem _ h2
  have h4 : (if lowerChar c = '.' then '_' else lowerChar c) ∈
      (get_column_name s).data := by
    rw [get_column_name_data]
    exact List.mem_filter.mpr ⟨h3, surviving_after c hgood⟩
  rw [hEq] at h4
  simp at h4

/-- C8 witness: a concrete camelCase field path yields a non-empty
`[a-z0-9_]`-only identifier. -/
theorem c8_naming_contract_witness :
    (∀ c ∈ (get_column_name "orderId").data, allowedChar c = true) ∧
    get_column_name "orderId" ≠ "" :=
  ⟨(c8_naming_contract "orderId").1,
    (c8_naming_contract "orderId").2 ⟨'o', by decide, Or.inl (by decide)⟩⟩

/-- C8 counterexample: the claim asserts that `get_column_name` always
produces a string matching `[a-z0-9_]+` (in particular non-empty), but on
the empty input string the output is empty. -/
theorem c8_counterexample : get_column_name "" = "" := by decide

/-! Step equations for the mutual walkers -/

theorem findFields_nil (pre : String) (pa : List String) :
    findFields [] pre pa = [] := by
  simp [findFields]

theorem findFields_cons_record (name doc : String) (ty : AvroType)
    (rest : List (String × String × AvroType)) (pre : String)
    (pa : List String) (fn : String) (fs : List (String × String × AvroType))
    (hres : resolveUnionFind ty = .record fn fs) :
    findFields ((name, doc, ty) :: rest) pre pa =
      find_array_fields (.record fn fs)
        (if pre == "" then name else pre ++ "." ++ name) pa ++
      findFields rest pre pa := by
  simp only [findFields]
  split <;> simp_all

theorem findFields_cons_arr (name doc : String) (ty : AvroType)
    (rest : List (String × String × AvroType)) (pre : String)
    (pa : List String) (items : AvroType)
    (hres : resolveUnionFind ty = .arr items) :
    findFields ((name, doc, ty) :: rest) pre pa =
      ((if pre == "" then name else pre ++ "." ++ name) ::
        (if (if pre == "" then name else pre ++ "." ++ name) ∈ pa then
          find_array_fields items
            ((if pre == "" then name else pre ++ "." ++ name) ++ "[].item") pa
        else [])) ++
      findFields rest pre pa := by
  simp only [findFields]
  split <;> simp_all

theorem findFields_cons_other (name doc : String) (ty : AvroType)
    (rest : List (String × String × AvroType)) (pre : String)
    (pa : List String)
    (h1 : ∀ fn fs, resolveUnionFind ty ≠ .record fn fs)
    (h2 : ∀ items, resolveUnionFind ty ≠ .arr items) :
    findFields ((name, doc, ty) :: rest) pre pa = findFields rest pre pa := by
  simp only [findFields]
  simp


theorem findArrayFields_mono_aux :
    ∀ n : Nat,
      (∀ (s : AvroType) (pre : String) (P1 P2 : List String),
        sizeOf s ≤ n → (∀ a ∈ P1, a ∈ P2) →
        ∀ p ∈ find_array_fields s pre P1, p ∈ find_array_fields s pre P2) ∧
      (∀ (l : List (String × String × AvroType)) (pre : String)
          (P1 P2 : List String),
        sizeOf l ≤ n → (∀ a ∈ P1, a ∈ P2) →
        ∀ p ∈ findFields l pre P1, p ∈ findFields l pre P2) := by
  intro n
  induction n using Nat.strong_induction_on with
  | _ n ih =>
    constructor
    · intro s pre P1 P2 hs hsub p hp
      cases s with
      | record fn fields =>
        simp only [find_array_fields] at hp ⊢
        have hlt : sizeOf fields < n := by
          simp only [AvroType.record.sizeOf_spec] at hs
          omega
        exact (ih (sizeOf fields) hlt).2 fields pre P1 P2 (Nat.le_refl _)
          hsub p hp
      | arr items => simp [find_array_fields] at hp
      | union bs => simp [find_array_fields] at hp
      | enm syms => simp [find_array_fields] at hp
      | prim b lt => simp [find_array_fields] at hp
    · intro l pre P1 P2 hl hsub p hp
      cases l with
      | nil => rw [findFields_nil] at hp; simp at hp
      | cons entry rest =>
        obtain ⟨name, doc, ty⟩ := entry
        have hrest : sizeOf rest < n := by
          simp only [List.cons.sizeOf_spec, Prod.mk.sizeOf_spec] at hl
          omega
        have hty : sizeOf ty < n := by
          simp only [List.cons.sizeOf_spec, Prod.mk.sizeOf_spec] at hl
          omega
        cases hres : resolveUnionFind ty with
        | record fn2 fs2 =>
          rw [findFields_cons_record name doc ty rest pre P1 fn2 fs2 hres] at hp
          rw [findFields_cons_record name doc ty rest pre P2 fn2 fs2 hres]
          rcases List.mem_append.mp hp with hp1 | hp2
          · apply List.mem_append_left
            have hsz : sizeOf (AvroType.record fn2 fs2) ≤ sizeOf ty := by
              rw [← hres]; exact resolveUnionFind_le ty
            exact (ih (sizeOf (AvroType.record fn2 fs2)) (by omega)).1 _ _
              P1 P2 (Nat.le_refl _) hsub p hp1
          · exact List.mem_append_right _
              ((ih (sizeOf rest) hrest).2 rest pre P1 P2 (Nat.le_refl _)
                hsub p hp2)
        | arr items =>
          rw [findFields_cons_arr name doc ty rest pre P1 items hres] at hp
          rw [findFields_cons_arr name doc ty rest pre P2 items hres]
          rcases List.mem_append.mp hp with hp1 | hp2
          · apply List.mem_append_left
            rcases List.mem_cons.mp hp1 with rfl | hp3
            · exact List.mem_cons_self _ _
            · apply List.mem_cons_of_mem
              by_cases hfull : (if pre == "" then name else pre ++ "." ++ name) ∈ P1
              · rw [if_pos hfull] at hp3
                rw [if_pos (hsub _ hfull)]
                have hsz : sizeOf (AvroType.arr items) ≤ sizeOf ty := by
                  rw [← hres]; exact resolveUnionFind_le ty
                have hsz2 : sizeOf items < sizeOf ty := by
                  simp only [AvroType.arr.sizeOf_spec] at hsz
                  omega
                exact (ih (sizeOf items) (by omega)).1 _ _ P1 P2
                  (Nat.le_refl _) hsub p hp3
              · rw [if_neg hfull] at hp3
                simp at hp3
          · exact List.mem_append_right _
              ((ih (sizeOf rest) hrest).2 rest pre P1 P2 (Nat.le_refl _)
                hsub p hp2)
        | union bs =>
          rw [findFields_cons_other name doc ty rest pre P1
            (by simp [hres]) (by simp [hres])] at hp
          rw [findFields_cons_other name doc ty rest pre P2
            (by simp [hres]) (by simp [hres])]
          exact (ih (sizeOf rest) hrest).2 rest pre P1 P2 (Nat.le_refl _)
            hsub p hp
        | enm syms =>
          rw [findFields_cons_other name doc ty rest pre P1
            (by simp [hres]) (by simp [hres])] at hp
          rw [findFields_cons_other name doc ty rest pre P2
            (by simp [hres]) (by simp [hres])]
          exact (ih (sizeOf rest) hrest).2 rest pre P1 P2 (Nat.le_refl _)
            hsub p hp
        | prim b lt2 =>
          rw [findFields_cons_other name doc ty rest pre P1
            (by simp [hres]) (by simp [hres])] at hp
          rw [findFields_cons_other name doc ty rest pre P2
            (by simp [hres]) (by simp [hres])]
          exact (ih (sizeOf rest) hrest).2 rest pre P1 P2 (Nat.le_refl _)
            hsub p hp

/-- C6: Array Discovery is monotone in the unnest policy — every array path
reported by `find_array_fields` under a policy is also reported under any
superset policy. -/
theorem c6_discover_monotone (s : AvroType) (pre : String)
    (P1 P2 : List String) (hsub : ∀ a ∈ P1, a ∈ P2) :
    ∀ p ∈ find_array_fields s pre P1, p ∈ find_array_fields s pre P2 :=
  (findArrayFields_mono_aux (sizeOf s)).1 s pre P1 P2 (Nat.le_refl _) hsub

/-- C6 witness: on the concrete nested schema, the nested array path found
under the singleton policy is still found under the larger policy. -/
theorem c6_discover_monotone_witness :
    "a[].item.b" ∈ find_array_fields nestedSchema "" nestedSelected :=
  c6_discover_monotone nestedSchema "" ["a"] nestedSelected
    (by intro a ha; simp [nestedSelected]; simp at ha; exact Or.inl ha)
    "a[].item.b"
    (by simp [nestedSchema, itemsA, itemsB, find_array_fields, findFields,
      resolveUnionFind, typeName])

theorem extractFields_nil (pre : String) (ap : List String) :
    extractFields [] pre ap = [] := by
  simp [extractFields]

theorem extractFields_cons_record (name doc : String) (ty : AvroType)
    (rest : List (String × String × AvroType)) (pre : String)
    (ap : List String) (fn : String) (fs : List (String × String × AvroType))
    (o : Bool) (hres : resolveUnionExtract ty = (.record fn fs, o)) :
    extractFields ((name, doc, ty) :: rest) pre ap =
      extract_field_paths (.record fn fs)
        (if pre == "" then name else pre ++ "." ++ name) ap ++
      extractFields rest pre ap := by
  simp only [extractFields]
  split <;> simp_all

theorem extractFields_cons_arr (name doc : String) (ty : AvroType)
    (rest : List (String × String × AvroType)) (pre : String)
    (ap : List String) (items : AvroType) (o : Bool)
    (hres : resolveUnionExtract ty = (.arr items, o)) :
    extractFields ((name, doc, ty) :: rest) pre ap =
      (if (if pre == "" then name else pre ++ "." ++ name) ∈ ap then
        extract_field_paths items
          ((if pre == "" then name else pre ++ "." ++ name) ++ "[].item") ap
      else
        [⟨(if pre == "" then name else pre ++ "." ++ name) ++ "[]", "array",
          doc, o, .noExtra⟩]) ++
      extractFields rest pre ap := by
  simp only [extractFields]
  split <;> simp_all

theorem extractFields_cons_enm (name doc : String) (ty : AvroType)
    (rest : List (String × String × AvroType)) (pre : String)
    (ap : List String) (syms : List String) (o : Bool)
    (hres : resolveUnionExtract ty = (.enm syms, o)) :
    extractFields ((name, doc, ty) :: rest) pre ap =
      ⟨(if pre == "" then name else pre ++ "." ++ name), "enum", doc, o,
        .enumVals syms⟩ :: extractFields rest pre ap := by
  simp only [extractFields]
  split <;> simp_all

theorem extractFields_cons_union (name doc : String) (ty : AvroType)
    (rest : List (String × String × AvroType)) (pre : String)
    (ap : List String) (bs2 : List AvroType) (o : Bool)
    (hres : resolveUnionExtract ty = (.union bs2, o)) :
    extractFields ((name, doc, ty) :: rest) pre ap =
      ⟨(if pre == "" then name else pre ++ "." ++ name), "union", doc, o,
        .logical none⟩ :: extractFields rest pre ap := by
  simp only [extractFields]
  split <;> simp_all

theorem extractFields_cons_prim (name doc : String) (ty : AvroType)
    (rest : List (String × String × AvroType)) (pre : String)
    (ap : List String) (b : String) (lt : Option String) (o : Bool)
    (hres : resolveUnionExtract ty = (.prim b lt, o)) :
    extractFields ((name, doc, ty) :: rest) pre ap =
      ⟨(if pre == "" then name else pre ++ "." ++ name), b, doc, o,
        .logical lt⟩ :: extractFields rest pre ap := by
  simp only [extractFields]
  split <;> simp_all

/-- C5: for a union-typed field the walker takes the first branch whose
type is not `"null"` as the effective type with `optional=true`, and the
first branch with `optional=false` when every branch is null; whenever the
field itself produces a LeafDescriptor (the effective type is not a record
and not an array selected for unnesting), that leaf carries exactly this
optional flag and the effective type. -/
theorem c5_union_optional (bs : List AvroType) (b0 : AvroType)
    (rest : List AvroType) (hbs : bs = b0 :: rest) (name doc pre : String)
    (ap : List String) :
    ((∀ t, bs.find? (fun t => typeName t != "null") = some t →
        resolveUnionExtract (.union bs) = (t, true)) ∧
     (bs.find? (fun t => typeName t != "null") = none →
        resolveUnionExtract (.union bs) = (b0, false))) ∧
    ((∀ fn fs, (resolveUnionExtract (.union bs)).1 ≠ .record fn fs) →
     (∀ items, (resolveUnionExtract (.union bs)).1 = .arr items →
        (if pre == "" then name else pre ++ "." ++ name) ∉ ap) →
     ∃ leaf, extractFields [(name, doc, .union bs)] pre ap = [leaf] ∧
       leaf.optional = (resolveUnionExtract (.union bs)).2 ∧
       leaf.ftype = typeName (resolveUnionExtract (.union bs)).1 ∧
       leaf.doc = doc) := by
  constructor
  · constructor
    · intro t hfind
      have hhead : (bs.filter (fun t => typeName t != "null")).head? = some t := by
        rw [List.filter_head?]
        exact hfind
      simp only [resolveUnionExtract]
      cases hf : bs.filter (fun t => typeName t != "null") with
      | nil => rw [hf] at hhead; simp at hhead
      | cons x xs =>
        rw [hf] at hhead
        simp at hhead
        rw [hhead]
    · intro hnone
      have hf : bs.filter (fun t => typeName t != "null") = [] := by
        rw [List.filter_eq_nil_iff]
        intro a ha
        simp only [List.find?_eq_none] at hnone
        simp [hnone a ha]
      simp only [resolveUnionExtract]
      rw [hf, hbs]
  · intro h2 h3
    rcases hre : resolveUnionExtract (.union bs) with ⟨eff, o⟩
    have h1 : (resolveUnionExtract (.union bs)).1 = eff := by rw [hre]
    have hof : (resolveUnionExtract (.union bs)).2 = o := by rw [hre]
    cases eff with
    | record fn fs => exact absurd h1 (h2 fn fs)
    | arr items =>
      have hfull := h3 items h1
      refine ⟨⟨(if pre == "" then name else pre ++ "." ++ name) ++ "[]",
        "array", doc, o, .noExtra⟩, ?_, ?_, ?_, rfl⟩
      · rw [extractFields_cons_arr name doc _ [] pre ap items o hre,
          extractFields_nil, if_neg hfull, List.append_nil]
      · rfl
      · rfl
    | union bs2 =>
      refine ⟨⟨(if pre == "" then name else pre ++ "." ++ name), "union",
        doc, o, .logical none⟩, ?_, ?_, ?_, rfl⟩
      · rw [extractFields_cons_union name doc _ [] pre ap bs2 o hre,
          extractFields_nil]
      · rfl
      · rfl
    | enm syms =>
      refine ⟨⟨(if pre == "" then name else pre ++ "." ++ name), "enum",
        doc, o, .enumVals syms⟩, ?_, ?_, ?_, rfl⟩
      · rw [extractFields_cons_enm name doc _ [] pre ap syms o hre,
          extractFields_nil]
      · rfl
      · rfl
    | prim b lt =>
      refine ⟨⟨(if pre == "" then name else pre ++ "." ++ name), b, doc, o,
        .logical lt⟩, ?_, ?_, ?_, rfl⟩
      · rw [extractFields_cons_prim name doc _ [] pre ap b lt o hre,
          extractFields_nil]
      · rfl
      · rfl

/-- C5 witness: a nullable string union field yields one optional string
leaf. -/
theorem c5_union_optional_witness :
    ∃ leaf, extractFields
        [("u", "", .union [.prim "null" none, .prim "string" none])] "" [] =
        [leaf] ∧
      leaf.optional = (resolveUnionExtract
        (.union [.prim "null" none, .prim "string" none])).2 ∧
      leaf.ftype = typeName (resolveUnionExtract
        (.union [.prim "null" none, .prim "string" none])).1 ∧
      leaf.doc = "" :=
  (c5_union_optional [.prim "null" none, .prim "string" none]
    (.prim "null" none) [.prim "string" none] rfl "u" "" "" []).2
    (by intro fn fs h; simp [resolveUnionExtract, typeName] at h)
    (by intro items h; simp [resolveUnionExtract, typeName] at h)


theorem noPrimArrayUnion_of_mem {t : AvroType} {bs : List AvroType}
    (ht : t ∈ bs) (h : noPrimArrayUnion bs = true) : noPrimArray t = true := by
  induction bs with
  | nil => cases ht
  | cons b rest ih =>
    simp only [noPrimArrayUnion, Bool.and_eq_true] at h
    rcases List.mem_cons.mp ht with rfl | hmem
    · exact h.1
    · exact ih hmem h.2

theorem noPrimArray_resolve (ty : AvroType) (h : noPrimArray ty = true) :
    noPrimArray (resolveUnionExtract ty).1 = true := by
  cases ty with
  | union bs =>
    simp only [noPrimArray, Bool.and_eq_true] at h
    simp only [resolveUnionExtract]
    cases hf : bs.filter (fun t => typeName t != "null") with
    | cons x xs =>
      have hx : x ∈ bs :=
        List.mem_of_mem_filter (hf ▸ List.mem_cons_self x xs)
      exact noPrimArrayUnion_of_mem hx h
    | nil =>
      cases bs with
      | nil => simp [noPrimArray, noPrimArrayUnion]
      | cons b0 bs2 =>
        exact noPrimArrayUnion_of_mem (List.mem_cons_self b0 bs2) h
  | record fn fields => exact h
  | arr items => exact h
  | enm syms => exact h
  | prim b lt => exact h

/-- The two union resolutions agree, except that when every branch is null
(or the union is empty) Array Discovery keeps the union while the walker
falls back to the first branch. -/
theorem resolveUnionFind_shape (ty : AvroType) :
    resolveUnionFind ty = (resolveUnionExtract ty).1 ∨
    (∃ bs, ty = .union bs ∧ resolveUnionFind ty = .union bs ∧
      (typeName (resolveUnionExtract ty).1 = "null" ∨
        (resolveUnionExtract ty).1 = .union [])) := by
  cases ty with
  | union bs =>
    simp only [resolveUnionFind, resolveUnionExtract]
    cases hf : bs.filter (fun t => typeName t != "null") with
    | cons x xs => exact Or.inl rfl
    | nil =>
      refine Or.inr ⟨bs, rfl, rfl, ?_⟩
      cases bs with
      | nil => exact Or.inr rfl
      | cons b0 bs2 =>
        left
        have hb0 : (typeName b0 != "null") = false := by
          have := List.filter_eq_nil_iff.mp hf b0 (List.mem_cons_self b0 bs2)
          simpa using this
        simpa using hb0
  | record fn fields => exact Or.inl rfl
  | arr items => exact Or.inl rfl
  | enm syms => exact Or.inl rfl
  | prim b lt => exact Or.inl rfl

theorem c10_aux :
    ∀ n : Nat,
      (∀ (s : AvroType) (pre : String) (ap : List String),
        sizeOf s ≤ n → noPrimArray s = true →
        ∀ p ∈ extract_field_paths s pre ap, p.ftype = "array" →
          ∃ q, p.path = q ++ "[]" ∧ q ∈ find_array_fields s pre ap) ∧
      (∀ (l : List (String × String × AvroType)) (pre : String)
          (ap : List String),
        sizeOf l ≤ n → noPrimArrayList l = true →
        ∀ p ∈ extractFields l pre ap, p.ftype = "array" →
          ∃ q, p.path = q ++ "[]" ∧ q ∈ findFields l pre ap) := by
  intro n
  induction n using Nat.strong_induction_on with
  | _ n ih =>
    constructor
    · intro s pre ap hs hwf p hp harr
      cases s with
      | record fn fields =>
        simp only [extract_field_paths] at hp
        simp only [find_array_fields]
        have hlt : sizeOf fields < n := by
          simp only [AvroType.record.sizeOf_spec] at hs
          omega
        exact (ih (sizeOf fields) hlt).2 fields pre ap (Nat.le_refl _)
          (by simpa [noPrimArray] using hwf) p hp harr
      | arr items => simp [extract_field_paths] at hp
      | union bs => simp [extract_field_paths] at hp
      | enm syms => simp [extract_field_paths] at hp
      | prim b lt => simp [extract_field_paths] at hp
    · intro l pre ap hl hwf p hp harr
      cases l with
      | nil => rw [extractFields_nil] at hp; simp at hp
      | cons entry rest =>
        obtain ⟨name, doc, ty⟩ := entry
        have hrest : sizeOf rest < n := by
          simp only [List.cons.sizeOf_spec, Prod.mk.sizeOf_spec] at hl
          omega
        have htylt : sizeOf ty < n := by
          simp only [List.cons.sizeOf_spec, Prod.mk.sizeOf_spec] at hl
          omega
        simp only [noPrimArrayList, Bool.and_eq_true] at hwf
        have hresolvele := resolveUnionExtract_fst_le ty
        have hwfres := noPrimArray_resolve ty hwf.1
        rcases hres : resolveUnionExtract ty with ⟨eff, o⟩
        rw [hres] at hresolvele hwfres
        cases eff with
        | record fn2 fs2 =>
          have hfind : resolveUnionFind ty = .record fn2 fs2 := by
            rcases resolveUnionFind_shape ty with he | ⟨bs2, _, _, hx⟩
            · rw [he, hres]
            · rw [hres] at hx
              rcases hx with hx | hx <;> simp [typeName] at hx
          rw [extractFields_cons_record name doc ty rest pre ap fn2 fs2 o hres]
            at hp
          rw [findFields_cons_record name doc ty rest pre ap fn2 fs2 hfind]
          rcases List.mem_append.mp hp with hp1 | hp2
          · obtain ⟨q, hq1, hq2⟩ :=
              (ih (sizeOf (AvroType.record fn2 fs2)) (by simp at hresolvele ⊢; omega)).1
                _ _ ap (Nat.le_refl _) hwfres p hp1 harr
            exact ⟨q, hq1, List.mem_append_left _ hq2⟩
          · obtain ⟨q, hq1, hq2⟩ := (ih (sizeOf rest) hrest).2 rest pre ap
              (Nat.le_refl _) hwf.2 p hp2 harr
            exact ⟨q, hq1, List.mem_append_right _ hq2⟩
        | arr items =>
          have hfind : resolveUnionFind ty = .arr items := by
            rcases resolveUnionFind_shape ty with he | ⟨bs2, _, _, hx⟩
            · rw [he, hres]
            · rw [hres] at hx
              rcases hx with hx | hx <;> simp [typeName] at hx
          rw [extractFields_cons_arr name doc ty rest pre ap items o hres] at hp
          rw [findFields_cons_arr name doc ty rest pre ap items hfind]
          rcases List.mem_append.mp hp with hp1 | hp2
          · by_cases hfull : (if pre == "" then name else pre ++ "." ++ name) ∈ ap
            · rw [if_pos hfull] at hp1
              have hitems : sizeOf items < n := by
                simp only [AvroType.arr.sizeOf_spec] at hresolvele
                omega
              obtain ⟨q, hq1, hq2⟩ := (ih (sizeOf items) hitems).1 items _ ap
                (Nat.le_refl _) (by simpa [noPrimArray] using hwfres) p hp1 harr
              refine ⟨q, hq1, List.mem_append_left _ (List.mem_cons_of_mem _ ?_)⟩
              rw [if_pos hfull]
              exact hq2
            · rw [if_neg hfull] at hp1
              rcases List.mem_singleton.mp hp1 with rfl
              exact ⟨(if pre == "" then name else pre ++ "." ++ name), rfl,
                List.mem_append_left _ (List.mem_cons_self _ _)⟩
          · obtain ⟨q, hq1, hq2⟩ := (ih (sizeOf rest) hrest).2 rest pre ap
              (Nat.le_refl _) hwf.2 p hp2 harr
            exact ⟨q, hq1, List.mem_append_right _ hq2⟩
        | union bs2 =>
          have hno1 : ∀ fn fs, resolveUnionFind ty ≠ .record fn fs := by
            rcases resolveUnionFind_shape ty with he | ⟨bs3, _, hu, _⟩
            · rw [he, hres]; intro fn fs h; cases h
            · rw [hu]; intro fn fs h; cases h
          have hno2 : ∀ items, resolveUnionFind ty ≠ .arr items := by
            rcases resolveUnionFind_shape ty with he | ⟨bs3, _, hu, _⟩
            · rw [he, hres]; intro items h; cases h
            · rw [hu]; intro items h; cases h
          rw [extractFields_cons_union name doc ty rest pre ap bs2 o hres] at hp
          rw [findFields_cons_other name doc ty rest pre ap hno1 hno2]
          rcases List.mem_cons.mp hp with rfl | hp2
          · simp at harr
          · exact (ih (sizeOf rest) hrest).2 rest pre ap (Nat.le_refl _)
              hwf.2 p hp2 harr
        | enm syms =>
          have hno1 : ∀ fn fs, resolveUnionFind ty ≠ .record fn fs := by
            rcases resolveUnionFind_shape ty with he | ⟨bs3, _, hu, _⟩
            · rw [he, hres]; intro fn fs h; cases h
            · rw [hu]; intro fn fs h; cases h
          have hno2 : ∀ items, resolveUnionFind ty ≠ .arr items := by
            rcases resolveUnionFind_shape ty with he | ⟨bs3, _, hu, _⟩
            · rw [he, hres]; intro items h; cases h
            · rw [hu]; intro items h; cases h
          rw [extractFields_cons_enm name doc ty rest pre ap syms o hres] at hp
          rw [findFields_cons_other name doc ty rest pre ap hno1 hno2]
          rcases List.mem_cons.mp hp with rfl | hp2
          · simp at harr
          · exact (ih (sizeOf rest) hrest).2 rest pre ap (Nat.le_refl _)
              hwf.2 p hp2 harr
        | prim b lt =>
          have hno1 : ∀ fn fs, resolveUnionFind ty ≠ .record fn fs := by
            rcases resolveUnionFind_shape ty with he | ⟨bs3, _, hu, _⟩
            · rw [he, hres]; intro fn fs h; cases h
            · rw [hu]; intro fn fs h; cases h
          have hno2 : ∀ items, resolveUnionFind ty ≠ .arr items := by
            rcases resolveUnionFind_shape ty with he | ⟨bs3, _, hu, _⟩
            · rw [he, hres]; intro items h; cases h
            · rw [hu]; intro items h; cases h
          rw [extractFields_cons_prim name doc ty rest pre ap b lt o hres] at hp
          rw [findFields_cons_other name doc ty rest pre ap hno1 hno2]
          rcases List.mem_cons.mp hp with rfl | hp2
          · simp only [noPrimArray] at hwfres
            simp at harr
            rw [harr] at hwfres
            simp at hwfres
          · exact (ih (sizeOf rest) hrest).2 rest pre ap (Nat.le_refl _)
              hwf.2 p hp2 harr

/-- C10: every array-kind leaf emitted by the walker has a path of the form
`q ++ "[]"`, the same array is reported by Array Discovery under the
unsuffixed path `q`, and (since no policy member ends in `"[]"`) the
suffixed leaf path itself is never a member of the unnest policy under
which it was produced. -/
theorem c10_array_leaf (s : AvroType) (pre : String) (ap : List String)
    (hwf : noPrimArray s = true)
    (hap : ∀ a ∈ ap, ∀ q : String, a ≠ q ++ "[]") :
    ∀ p ∈ extract_field_paths s pre ap, p.ftype = "array" →
      ∃ q, p.path = q ++ "[]" ∧ q ∈ find_array_fields s pre ap ∧
        p.path ∉ ap := by
  intro p hp harr
  obtain ⟨q, hq1, hq2⟩ :=
    (c10_aux (sizeOf s)).1 s pre ap (Nat.le_refl _) hwf p hp harr
  exact ⟨q, hq1, hq2, fun hmem => hap _ hmem q hq1⟩

/-- C10 witness: with only the outer array selected, the nested array leaf
`a[].item.b[]` is emitted with the `[]` suffix, discovery reports
`a[].item.b`, and the suffixed path is not in the policy. -/
theorem c10_array_leaf_witness :
    ∃ q, ("a[].item.b[]" : String) = q ++ "[]" ∧
      q ∈ find_array_fields nestedSchema "" ["a"] ∧
      ("a[].item.b[]" : String) ∉ (["a"] : List String) :=
  c10_array_leaf nestedSchema "" ["a"]
    (by simp [nestedSchema, itemsA, itemsB, noPrimArray, noPrimArrayList,
      noPrimArrayUnion])
    (by
      intro a ha q hEq
      simp only [List.mem_singleton] at ha
      subst ha
      have hlen := congrArg String.length hEq
      rw [String.length_append] at hlen
      have h1 : "a".length = 1 := rfl
      have h2 : "[]".length = 2 := rfl
      rw [h1, h2] at hlen
      omega)
    ⟨"a[].item.b[]", "array", "", false, .noExtra⟩
    (by simp [nestedSchema, itemsA, itemsB, extract_field_paths,
      extractFields, resolveUnionExtract, typeName])
    rfl

/-! Dict lemmas for the Table Partitioner (claims C1 and C2) -/

theorem dictGetD_nil (k : String) : dictGetD [] k = [] := rfl

theorem dictGetD_cons (k k2 : String) (v : List PathInfo) (rest : Dict) :
    dictGetD ((k2, v) :: rest) k = if k = k2 then v else dictGetD rest k := by
  by_cases h : k = k2
  · subst h
    simp [dictGetD, List.lookup]
  · rw [if_neg h]
    simp only [dictGetD, List.lookup]
    rw [show (k == k2) = false from by simp [h]]

theorem dictAppend_nil (k : String) (v : PathInfo) :
    dictAppend [] k v = [(k, [v])] := rfl

theorem dictAppend_cons (k2 : String) (vs : List PathInfo) (rest : Dict)
    (k : String) (v : PathInfo) :
    dictAppend ((k2, vs) :: rest) k v =
      if k2 = k then (k2, vs ++ [v]) :: rest
      else (k2, vs) :: dictAppend rest k v := by
  by_cases h : k2 = k <;> simp [dictAppend, h]

theorem dictEnsure_nil (k : String) : dictEnsure [] k = [(k, [])] := rfl

theorem dictEnsure_cons (k2 : String) (vs : List PathInfo) (rest : Dict)
    (k : String) :
    dictEnsure ((k2, vs) :: rest) k =
      if k2 = k then (k2, vs) :: rest
      else (k2, vs) :: dictEnsure rest k := by
  by_cases h : k2 = k <;> simp [dictEnsure, h]

theorem dictGetD_dictAppend_self (d : Dict) (k : String) (v : PathInfo) :
    dictGetD (dictAppend d k v) k = dictGetD d k ++ [v] := by
  induction d with
  | nil => simp [dictAppend_nil, dictGetD_cons, dictGetD_nil]
  | cons entry rest ih =>
    obtain ⟨k2, vs⟩ := entry
    rw [dictAppend_cons]
    by_cases h : k2 = k
    · subst h
      rw [if_pos rfl, dictGetD_cons, dictGetD_cons, if_pos rfl, if_pos rfl]
    · have hne : k ≠ k2 := fun hEq => h hEq.symm
      rw [if_neg h, dictGetD_cons, dictGetD_cons, if_neg hne, if_neg hne, ih]

theorem dictGetD_dictAppend_ne (d : Dict) (k k2 : String) (v : PathInfo)
    (h : k ≠ k2) :
    dictGetD (dictAppend d k2 v) k = dictGetD d k := by
  induction d with
  | nil => simp [dictAppend_nil, dictGetD_cons, dictGetD_nil, h]
  | cons entry rest ih =>
    obtain ⟨k3, vs⟩ := entry
    rw [dictAppend_cons]
    by_cases h3 : k3 = k2
    · subst h3
      rw [if_pos rfl, dictGetD_cons, dictGetD_cons, if_neg h, if_neg h]
    · rw [if_neg h3, dictGetD_cons, dictGetD_cons]
      by_cases hk : k = k3
      · rw [if_pos hk, if_pos hk]
      · rw [if_neg hk, if_neg hk, ih]

theorem dictGetD_dictEnsure (d : Dict) (k k2 : String) :
    dictGetD (dictEnsure d k2) k = dictGetD d k := by
  induction d with
  | nil =>
    rw [dictEnsure_nil, dictGetD_cons, dictGetD_nil]
    by_cases hk : k = k2
    · rw [if_pos hk]
    · rw [if_neg hk]
  | cons entry rest ih =>
    obtain ⟨k3, vs⟩ := entry
    rw [dictEnsure_cons]
    by_cases h3 : k3 = k2
    · rw [if_pos h3]
    · rw [if_neg h3, dictGetD_cons, dictGetD_cons]
      by_cases hk : k = k3
      · rw [if_pos hk, if_pos hk]
      · rw [if_neg hk, if_neg hk, ih]

theorem mem_dictGetD_dictAppend (d : Dict) (k k2 : String) (v x : PathInfo)
    (hx : x ∈ dictGetD (dictAppend d k2 v) k) :
    x ∈ dictGetD d k ∨ (k2 = k ∧ x = v) := by
  by_cases h : k = k2
  · subst h
    rw [dictGetD_dictAppend_self] at hx
    rcases List.mem_append.mp hx with h1 | h2
    · exact Or.inl h1
    · exact Or.inr ⟨rfl, List.mem_singleton.mp h2⟩
  · rw [dictGetD_dictAppend_ne d k k2 v h] at hx
    exact Or.inl hx

theorem mem_dictGetD_dictAppend_of_mem (d : Dict) (k k2 : String)
    (v x : PathInfo) (hx : x ∈ dictGetD d k) :
    x ∈ dictGetD (dictAppend d k2 v) k := by
  by_cases h : k = k2
  · subst h
    rw [dictGetD_dictAppend_self]
    exact List.mem_append_left _ hx
  · rw [dictGetD_dictAppend_ne d k k2 v h]
    exact hx

/-! Characterization of the two passes of build_table_hierarchy -/

theorem assign_fst (selected : List String) :
    ∀ (paths : List PathInfo) (acc : List PathInfo × Dict),
      (paths.foldl (assignLeaf selected) acc).1 =
        acc.1 ++ paths.filter
          (fun p => (selected.find?
            (fun a => strStartsWith p.path (a ++ "[].item"))).isNone) := by
  intro paths
  induction paths with
  | nil => intro acc; simp
  | cons p rest ih =>
    intro acc
    rw [List.foldl_cons, List.filter_cons]
    cases hfind : selected.find?
        (fun a => strStartsWith p.path (a ++ "[].item")) with
    | some a =>
      rw [ih]
      simp [assignLeaf, hfind]
    | none =>
      rw [ih]
      simp [assignLeaf, hfind]

theorem assign_snd (selected : List String) :
    ∀ (paths : List PathInfo) (acc : List PathInfo × Dict) (k : String),
      dictGetD ((paths.foldl (assignLeaf selected) acc).2) k =
        dictGetD acc.2 k ++ paths.filter
          (fun p => selected.find?
            (fun a => strStartsWith p.path (a ++ "[].item")) == some k) := by
  intro paths
  induction paths with
  | nil => intro acc k; simp
  | cons p rest ih =>
    intro acc k
    rw [List.foldl_cons, List.filter_cons, ih]
    cases hfind : selected.find?
        (fun a => strStartsWith p.path (a ++ "[].item")) with
    | some a =>
      by_cases hak : a = k
      · subst hak
        simp only [assignLeaf, hfind, dictGetD_dictAppend_self]
        simp
      · have hk : k ≠ a := fun hEq => hak hEq.symm
        simp only [assignLeaf, hfind, dictGetD_dictAppend_ne _ _ _ _ hk]
        simp [hak]
    | none =>
      simp [assignLeaf, hfind]

theorem foldl_preserve {α σ : Type} (P : σ → Prop) (f : σ → α → σ)
    (hpres : ∀ s a, P s → P (f s a)) :
    ∀ (l : List α) (s : σ), P s → P (l.foldl f s) := by
  intro l
  induction l with
  | nil => intro s hs; exact hs
  | cons a rest ih => intro s hs; exact ih _ (hpres s a hs)

theorem foldl_establish {α σ : Type} (P : σ → Prop) (f : σ → α → σ)
    (hpres : ∀ s a, P s → P (f s a)) (x : α) :
    ∀ (l : List α) (s : σ), x ∈ l → (∀ s2, P (f s2 x)) → P (l.foldl f s) := by
  intro l
  induction l with
  | nil => intro s hx; cases hx
  | cons a rest ih =>
    intro s hx hest
    rcases List.mem_cons.mp hx with rfl | hmem
    · exact foldl_preserve P f hpres rest _ (hest s)
    · exact ih _ hmem hest

theorem phase2Nested_preserve (paths : List PathInfo) (nested k : String)
    (x : PathInfo) :
    ∀ d, x ∈ dictGetD d k → x ∈ dictGetD (phase2Nested paths d nested) k := by
  intro d hx
  unfold phase2Nested
  refine foldl_preserve (fun d2 => x ∈ dictGetD d2 k) _ ?_ paths d hx
  intro d2 p hp
  dsimp only
  split
  · exact mem_dictGetD_dictAppend_of_mem _ _ _ _ _ hp
  · exact hp

theorem phase2Step_preserve (selected : List String) (paths : List PathInfo)
    (arrayPath k : String) (x : PathInfo) :
    ∀ d, x ∈ dictGetD d k →
      x ∈ dictGetD (phase2Step selected paths d arrayPath) k := by
  intro d hx
  unfold phase2Step
  refine foldl_preserve (fun d2 => x ∈ dictGetD d2 k) _ ?_ selected _ ?_
  · intro d2 nested hmem
    dsimp only
    split
    · exact phase2Nested_preserve paths nested k x d2 hmem
    · exact hmem
  · show x ∈ dictGetD (dictEnsure d arrayPath) k
    rw [dictGetD_dictEnsure]
    exact hx

theorem phase2Nested_adds (paths : List PathInfo) (nested : String)
    (x : PathInfo) (hx : x ∈ paths)
    (hcond : strStartsWith x.path (nested ++ "[].item") = true) :
    ∀ d, x ∈ dictGetD (phase2Nested paths d nested) nested := by
  intro d
  unfold phase2Nested
  refine foldl_establish (fun d2 => x ∈ dictGetD d2 nested) _ ?_ x paths d hx ?_
  · intro d2 p hp
    dsimp only
    split
    · exact mem_dictGetD_dictAppend_of_mem _ _ _ _ _ hp
    · exact hp
  · intro d2
    dsimp only
    rw [if_pos hcond, dictGetD_dictAppend_self]
    exact List.mem_append_right _ (List.mem_singleton.mpr rfl)

theorem phase2_adds (paths : List PathInfo) (selected : List String)
    (b : String) (hb : b ∈ selected)
    (hanc : ∃ a ∈ selected, strStartsWith b (a ++ "[].item") = true ∧ b ≠ a)
    (x : PathInfo) (hx : x ∈ paths)
    (hcond : strStartsWith x.path (b ++ "[].item") = true) :
    ∀ d, x ∈ dictGetD (selected.foldl (phase2Step selected paths) d) b := by
  obtain ⟨a0, ha0, hcond0, hne0⟩ := hanc
  intro d
  refine foldl_establish (fun d2 => x ∈ dictGetD d2 b) _ ?_ a0 selected d ha0 ?_
  · intro d2 a hmem
    exact phase2Step_preserve selected paths a b x d2 hmem
  · intro d2
    unfold phase2Step
    refine foldl_establish (fun d3 => x ∈ dictGetD d3 b) _ ?_ b selected _ hb ?_
    · intro d3 nested hmem
      dsimp only
      split
      · exact phase2Nested_preserve paths nested b x d3 hmem
      · exact hmem
    · intro d3
      dsimp only
      rw [if_pos (by simp [hcond0, bne_iff_ne, hne0])]
      exact phase2Nested_adds paths b x hx hcond d3

theorem phase2Nested_sound (paths : List PathInfo) (nested k : String)
    (x : PathInfo) :
    ∀ d, x ∈ dictGetD (phase2Nested paths d nested) k →
      x ∈ dictGetD d k ∨
        (x ∈ paths ∧ k = nested ∧
          strStartsWith x.path (nested ++ "[].item") = true) := by
  unfold phase2Nested
  induction paths with
  | nil => intro d hx; exact Or.inl hx
  | cons p rest ih =>
    intro d hx
    rw [List.foldl_cons] at hx
    rcases ih _ hx with h1 | h2
    · revert h1
      split
      · intro h1
        rcases mem_dictGetD_dictAppend _ _ _ _ _ h1 with h3 | ⟨hk, hxp⟩
        · exact Or.inl h3
        · subst hxp
          refine Or.inr ⟨List.mem_cons_self _ _, hk.symm, ?_⟩
          subst hk
          assumption
      · intro h1
        exact Or.inl h1
    · exact Or.inr ⟨List.mem_cons_of_mem _ h2.1, h2.2⟩

theorem phase2InnerFold_sound (paths : List PathInfo) (arrayPath k : String)
    (x : PathInfo) :
    ∀ (l : List String) (d : Dict),
      x ∈ dictGetD (l.foldl (fun d2 nested =>
          if strStartsWith nested (arrayPath ++ "[].item") && nested != arrayPath
          then phase2Nested paths d2 nested else d2) d) k →
      x ∈ dictGetD d k ∨
        (x ∈ paths ∧ k ∈ l ∧ strStartsWith x.path (k ++ "[].item") = true) := by
  intro l
  induction l with
  | nil => intro d hx; exact Or.inl hx
  | cons nested rest ih =>
    intro d hx
    rw [List.foldl_cons] at hx
    rcases ih _ hx with h1 | h2
    · revert h1
      split
      · intro h1
        rcases phase2Nested_sound paths nested k x d h1 with h3 | ⟨hp, hk, hsw⟩
        · exact Or.inl h3
        · subst hk
          exact Or.inr ⟨hp, List.mem_cons_self _ _, hsw⟩
      · intro h1
        exact Or.inl h1
    · exact Or.inr ⟨h2.1, List.mem_cons_of_mem _ h2.2.1, h2.2.2⟩

theorem phase2Step_sound (selected : List String) (paths : List PathInfo)
    (arrayPath k : String) (x : PathInfo) :
    ∀ d, x ∈ dictGetD (phase2Step selected paths d arrayPath) k →
      x ∈ dictGetD d k ∨
        (x ∈ paths ∧ k ∈ selected ∧
          strStartsWith x.path (k ++ "[].item") = true) := by
  intro d hx
  unfold phase2Step at hx
  rcases phase2InnerFold_sound paths arrayPath k x selected _ hx with h1 | h2
  · rw [dictGetD_dictEnsure] at h1
    exact Or.inl h1
  · exact Or.inr h2

theorem phase2_sound (selected : List String) (paths : List PathInfo)
    (k : String) (x : PathInfo) :
    ∀ (l : List String) (d : Dict),
      x ∈ dictGetD (l.foldl (phase2Step selected paths) d) k →
      x ∈ dictGetD d k ∨
        (x ∈ paths ∧ k ∈ selected ∧
          strStartsWith x.path (k ++ "[].item") = true) := by
  intro l
  induction l with
  | nil => intro d hx; exact Or.inl hx
  | cons a rest ih =>
    intro d hx
    rw [List.foldl_cons] at hx
    rcases ih _ hx with h1 | h2
    · exact phase2Step_sound selected paths a k x d h1
    · exact Or.inr h2

/-- C1 (amended): the first pass of `build_table_hierarchy` assigns each
leaf to the TableGroup of the FIRST member of the unnest policy in
iteration order whose `member + "[].item"` leads the leaf path — not the
longest such member — and to the root group when no member qualifies; a
second pass additionally appends every leaf lying under a policy member
that is nested below another policy member to that nested member's group,
duplicating such leaves. -/
theorem c1_first_match_partition (paths : List PathInfo)
    (selected : List String) (p : PathInfo) (hp : p ∈ paths) :
    ((selected.find? (fun a => strStartsWith p.path (a ++ "[].item"))) = none →
      p ∈ (build_table_hierarchy paths selected).root_table) ∧
    (∀ a, (selected.find?
        (fun a => strStartsWith p.path (a ++ "[].item"))) = some a →
      p ∈ dictGetD (build_table_hierarchy paths selected).array_tables a) ∧
    (∀ b ∈ selected,
      (∃ a ∈ selected, strStartsWith b (a ++ "[].item") = true ∧ b ≠ a) →
      strStartsWith p.path (b ++ "[].item") = true →
      p ∈ dictGetD (build_table_hierarchy paths selected).array_tables b) := by
  refine ⟨?_, ?_, ?_⟩
  · intro hfind
    show p ∈ (paths.foldl (assignLeaf selected) ([], [])).1
    rw [assign_fst]
    simp only [List.nil_append]
    exact List.mem_filter.mpr ⟨hp, by simp [hfind]⟩
  · intro a hfind
    show p ∈ dictGetD (selected.foldl (phase2Step selected paths)
      (paths.foldl (assignLeaf selected) ([], [])).2) a
    refine foldl_preserve (fun d => p ∈ dictGetD d a) _ ?_ selected _ ?_
    · intro d ap hmem
      exact phase2Step_preserve selected paths ap a p d hmem
    · show p ∈ dictGetD (paths.foldl (assignLeaf selected) ([], [])).2 a
      rw [assign_snd]
      simp only [dictGetD_nil, List.nil_append]
      exact List.mem_filter.mpr ⟨hp, by simp [hfind]⟩
  · intro b hb hanc hsw
    exact phase2_adds paths selected b hb hanc p hp hsw _

/-- C2 (amended): every walker leaf appears in the root list or in at least
one TableGroup; a leaf with no policy ancestor appears in the root list and
in no group; a leaf with a policy ancestor never appears in the root list,
but may be duplicated across several groups (exactly-one fails, see the
counterexample). -/
theorem c2_coverage (paths : List PathInfo) (selected : List String)
    (p : PathInfo) (hp : p ∈ paths) :
    (p ∈ (build_table_hierarchy paths selected).root_table ∨
      ∃ a, p ∈ dictGetD (build_table_hierarchy paths selected).array_tables a) ∧
    ((∀ a ∈ selected, strStartsWith p.path (a ++ "[].item") = false) →
      p ∈ (build_table_hierarchy paths selected).root_table ∧
      ∀ a, p ∉ dictGetD (build_table_hierarchy paths selected).array_tables a) ∧
    ((∃ a ∈ selected, strStartsWith p.path (a ++ "[].item") = true) →
      p ∉ (build_table_hierarchy paths selected).root_table) := by
  refine ⟨?_, ?_, ?_⟩
  · cases hfind : selected.find?
        (fun a => strStartsWith p.path (a ++ "[].item")) with
    | none =>
      left
      show p ∈ (paths.foldl (assignLeaf selected) ([], [])).1
      rw [assign_fst]
      simp only [List.nil_append]
      exact List.mem_filter.mpr ⟨hp, by simp [hfind]⟩
    | some a =>
      right
      refine ⟨a, ?_⟩
      show p ∈ dictGetD (selected.foldl (phase2Step selected paths)
        (paths.foldl (assignLeaf selected) ([], [])).2) a
      refine foldl_preserve (fun d => p ∈ dictGetD d a) _ ?_ selected _ ?_
      · intro d ap hmem
        exact phase2Step_preserve selected paths ap a p d hmem
      · show p ∈ dictGetD (paths.foldl (assignLeaf selected) ([], [])).2 a
        rw [assign_snd]
        simp only [dictGetD_nil, List.nil_append]
        exact List.mem_filter.mpr ⟨hp, by simp [hfind]⟩
  · intro hno
    have hfind : selected.find?
        (fun a => strStartsWith p.path (a ++ "[].item")) = none := by
      rw [List.find?_eq_none]
      intro a ha
      simp [hno a ha]
    constructor
    · show p ∈ (paths.foldl (assignLeaf selected) ([], [])).1
      rw [assign_fst]
      simp only [List.nil_append]
      exact List.mem_filter.mpr ⟨hp, by simp [hfind]⟩
    · intro a hmem
      have hmem2 : p ∈ dictGetD (selected.foldl (phase2Step selected paths)
          (paths.foldl (assignLeaf selected) ([], [])).2) a := hmem
      rcases phase2_sound selected paths a p selected _ hmem2 with h1 | h2
      · rw [assign_snd] at h1
        simp only [dictGetD_nil, List.nil_append] at h1
        have := (List.mem_filter.mp h1).2
        rw [hfind] at this
        simp at this
      · have := hno a h2.2.1
        rw [h2.2.2] at this
        cases this
  · rintro ⟨a, ha, hsw⟩ hroot
    have hroot2 : p ∈ (paths.foldl (assignLeaf selected) ([], [])).1 := hroot
    rw [assign_fst] at hroot2
    simp only [List.nil_append] at hroot2
    have hpred := (List.mem_filter.mp hroot2).2
    simp only [Option.isNone_iff_eq_none, List.find?_eq_none] at hpred
    have := hpred a ha
    rw [hsw] at this
    simp at this

/-- The walker output for the concrete nested schema, evaluated. -/
theorem nestedPaths_eval : nestedPaths =
    [⟨"id", "string", "", false, .logical none⟩,
     ⟨"a[].item.x", "string", "", false, .logical none⟩,
     ⟨"a[].item.b[].item.y", "string", "", false, .logical none⟩] := by
  simp [nestedPaths, nestedSchema, itemsA, itemsB, nestedSelected,
    extract_field_paths, extractFields, resolveUnionExtract, typeName]

/-- C1 counterexample: the leaf `a[].item.b[].item.y` has
`a[].item.b` — a longer, strictly more specific policy ancestor — yet it
is placed in the group of `a` (the first policy member in iteration
order), which the claim forbids. -/
theorem c1_counterexample :
    (⟨"a[].item.b[].item.y", "string", "", false, .logical none⟩ : PathInfo) ∈
      dictGetD (build_table_hierarchy nestedPaths nestedSelected).array_tables
        "a" ∧
    "a[].item.b" ∈ nestedSelected ∧
    strStartsWith "a[].item.b[].item.y" ("a[].item.b" ++ "[].item") = true ∧
    ("a" : String).length < ("a[].item.b" : String).length := by
  rw [nestedPaths_eval]
  decide

/-- C2 counterexample: the same leaf appears in two different TableGroups
(`a` and `a[].item.b`), refuting "exactly one TableGroup". -/
theorem c2_counterexample :
    (⟨"a[].item.b[].item.y", "string", "", false, .logical none⟩ : PathInfo) ∈
      dictGetD (build_table_hierarchy nestedPaths nestedSelected).array_tables
        "a" ∧
    (⟨"a[].item.b[].item.y", "string", "", false, .logical none⟩ : PathInfo) ∈
      dictGetD (build_table_hierarchy nestedPaths nestedSelected).array_tables
        "a[].item.b" ∧
    ("a" : String) ≠ "a[].item.b" := by
  rw [nestedPaths_eval]
  decide

/-- C1 witness: the leaf `a[].item.x` is assigned to the group of `a`, the
first matching policy member. -/
theorem c1_first_match_partition_witness :
    (⟨"a[].item.x", "string", "", false, .logical none⟩ : PathInfo) ∈
      dictGetD (build_table_hierarchy nestedPaths nestedSelected).array_tables
        "a" :=
  (c1_first_match_partition nestedPaths nestedSelected
    ⟨"a[].item.x", "string", "", false, .logical none⟩
    (by rw [nestedPaths_eval]; decide)).2.1 "a" (by decide)

/-- C2 witness: the root leaf `id` is in the root list and not in the
group of `a`. -/
theorem c2_coverage_witness :
    (⟨"id", "string", "", false, .logical none⟩ : PathInfo) ∈
      (build_table_hierarchy nestedPaths nestedSelected).root_table ∧
    (⟨"id", "string", "", false, .logical none⟩ : PathInfo) ∉
      dictGetD (build_table_hierarchy nestedPaths nestedSelected).array_tables
        "a" := by
  have h := (c2_coverage nestedPaths nestedSelected
    ⟨"id", "string", "", false, .logical none⟩
    (by rw [nestedPaths_eval]; decide)).2.1 (by decide)
  exact ⟨h.1, h.2 "a"⟩

/-! Foreign-key resolution and table emission (claims C3, C4, C7) -/

theorem emitArrayFK_stale (rootTableName : String) (arrayTables : Dict)
    (p kp : String)
    (h : (dictGetD arrayTables p).find? (fun f => f.path == kp) = none) :
    emitArrayFK rootTableName arrayTables p kp =
      "  " ++ get_column_name (strReplace kp (p ++ ".") "") ++
      " VARCHAR(255) COMMENT 'Foreign key to " ++
      (rootTableName ++ "_" ++ get_column_name p) ++ "',\n" := by
  simp [emitArrayFK, h]

theorem emitRootFK_stale (rootTableName : String) (rootFields : List PathInfo)
    (naturalKey naturalKeyColName : String)
    (h : rootFields.find? (fun f => f.path == naturalKey) = none) :
    emitRootFK rootTableName rootFields naturalKey naturalKeyColName =
      "  " ++ naturalKeyColName ++ " VARCHAR(255) COMMENT 'Foreign key to " ++
      rootTableName ++ "',\n" := by
  simp [emitRootFK, h]

theorem fkExplicitOrRoot_stale (rootTableName : String)
    (arrayNaturalKeys : List (String × String))
    (parentChildRelations : List (String × RelChoice)) (arrayTables : Dict)
    (rootFields : List PathInfo)
    (naturalKey naturalKeyColName arrayPath : String)
    (hstale1 : ∀ p kp, List.lookup p arrayNaturalKeys = some kp →
      (dictGetD arrayTables p).find? (fun f => f.path == kp) = none)
    (hstale2 : rootFields.find? (fun f => f.path == naturalKey) = none) :
    ∃ col table,
      fkExplicitOrRoot rootTableName arrayNaturalKeys parentChildRelations
        arrayTables rootFields naturalKey naturalKeyColName arrayPath =
      "  " ++ col ++ " VARCHAR(255) COMMENT 'Foreign key to " ++ table ++
        "',\n" := by
  unfold fkExplicitOrRoot
  cases hrel : List.lookup arrayPath parentChildRelations with
  | some rel =>
    dsimp only
    by_cases hch : rel.choice = "Parent array's key"
    · rw [if_pos hch]
      cases hkp : List.lookup rel.parent arrayNaturalKeys with
      | some kp =>
        exact ⟨_, _, emitArrayFK_stale rootTableName arrayTables rel.parent kp
          (hstale1 rel.parent kp hkp)⟩
      | none =>
        exact ⟨_, _, emitRootFK_stale rootTableName rootFields naturalKey
          naturalKeyColName hstale2⟩
    · rw [if_neg hch]
      exact ⟨_, _, emitRootFK_stale rootTableName rootFields naturalKey
        naturalKeyColName hstale2⟩
  | none =>
    exact ⟨_, _, emitRootFK_stale rootTableName rootFields naturalKey
      naturalKeyColName hstale2⟩

/-- C4: when every selected key is stale — the parent's natural key has no
matching LeafDescriptor in the parent TableGroup and the root natural key
has none among the root fields — foreign-key resolution still emits a
column, of the generic string type `VARCHAR(255)`, in every branch of the
handler (the model is total: nothing raises). -/
theorem c4_stale_key_fallback (rootTableName : String) (selected : List String)
    (arrayNaturalKeys : List (String × String))
    (parentChildRelations : List (String × RelChoice)) (arrayTables : Dict)
    (rootFields : List PathInfo)
    (naturalKey naturalKeyColName arrayPath : String)
    (hstale1 : ∀ p kp, List.lookup p arrayNaturalKeys = some kp →
      (dictGetD arrayTables p).find? (fun f => f.path == kp) = none)
    (hstale2 : rootFields.find? (fun f => f.path == naturalKey) = none) :
    ∃ col table,
      fkSection rootTableName selected arrayNaturalKeys parentChildRelations
        arrayTables rootFields naturalKey naturalKeyColName arrayPath =
      "  " ++ col ++ " VARCHAR(255) COMMENT 'Foreign key to " ++ table ++
        "',\n" := by
  unfold fkSection
  cases hpar : findParentArray selected arrayPath with
  | some p =>
    dsimp only
    by_cases hp : p ≠ ""
    · rw [if_pos hp]
      cases hkp : List.lookup p arrayNaturalKeys with
      | some kp =>
        exact ⟨_, _, emitArrayFK_stale rootTableName arrayTables p kp
          (hstale1 p kp hkp)⟩
      | none =>
        exact fkExplicitOrRoot_stale rootTableName arrayNaturalKeys
          parentChildRelations arrayTables rootFields naturalKey
          naturalKeyColName arrayPath hstale1 hstale2
    · rw [if_neg hp]
      exact fkExplicitOrRoot_stale rootTableName arrayNaturalKeys
        parentChildRelations arrayTables rootFields naturalKey
        naturalKeyColName arrayPath hstale1 hstale2
  | none =>
    exact fkExplicitOrRoot_stale rootTableName arrayNaturalKeys
      parentChildRelations arrayTables rootFields naturalKey
      naturalKeyColName arrayPath hstale1 hstale2

/-- C4 witness: with an empty group dict and no root fields every lookup is
stale, and resolution produces a `VARCHAR(255)` foreign-key column. -/
theorem c4_stale_key_fallback_witness :
    ∃ col table,
      fkSection "r" [] [] [] [] [] "k" "" "ap" =
      "  " ++ col ++ " VARCHAR(255) COMMENT 'Foreign key to " ++ table ++
        "',\n" :=
  c4_stale_key_fallback "r" [] [] [] [] [] "k" "" "ap"
    (fun p kp h => by simp [List.lookup] at h) rfl

/-- C3 (amended): the implicit nearest-parent binding takes precedence over
the caller's explicit relationship choice — whenever the array has a truthy
nested parent array with a selected natural key, the foreign key binds to
that parent array table regardless of `parentChildRelations`; an explicit
choice that selects the root key takes effect only when no such parent
binding exists. -/
theorem c3_nested_precedence (rootTableName : String) (selected : List String)
    (arrayNaturalKeys : List (String × String))
    (parentChildRelations : List (String × RelChoice)) (arrayTables : Dict)
    (rootFields : List PathInfo)
    (naturalKey naturalKeyColName arrayPath : String) :
    (∀ p kp, findParentArray selected arrayPath = some p → p ≠ "" →
      List.lookup p arrayNaturalKeys = some kp →
      fkSection rootTableName selected arrayNaturalKeys parentChildRelations
        arrayTables rootFields naturalKey naturalKeyColName arrayPath =
      emitArrayFK rootTableName arrayTables p kp) ∧
    (findParentArray selected arrayPath = none →
      ∀ rel, List.lookup arrayPath parentChildRelations = some rel →
      rel.choice ≠ "Parent array's key" →
      fkSection rootTableName selected arrayNaturalKeys parentChildRelations
        arrayTables rootFields naturalKey naturalKeyColName arrayPath =
      emitRootFK rootTableName rootFields naturalKey naturalKeyColName) := by
  constructor
  · intro p kp hpar hp hkp
    unfold fkSection
    rw [hpar]
    dsimp only
    rw [if_pos hp, hkp]
  · intro hpar rel hrel hch
    unfold fkSection
    rw [hpar]
    dsimp only
    unfold fkExplicitOrRoot
    rw [hrel]
    dsimp only
    rw [if_neg hch]

/-- C3 witness: for the nested array `a[].item.b` with parent `a` carrying a
natural key, the resolved foreign key is the parent-array binding, even
with an explicit root choice present. -/
theorem c3_nested_precedence_witness :
    fkSection "orders" nestedSelected [("a", "a[].item.x")]
      [("a[].item.b", ⟨"root", "Root table's key"⟩)] [] [] "id" "" "a[].item.b" =
    emitArrayFK "orders" [] "a" "a[].item.x" :=
  (c3_nested_precedence "orders" nestedSelected [("a", "a[].item.x")]
    [("a[].item.b", ⟨"root", "Root table's key"⟩)] [] [] "id" ""
    "a[].item.b").1 "a" "a[].item.x" (by decide) (by decide) (by decide)

/-- C3 counterexample: the caller explicitly chose the root table's key for
the nested array `a[].item.b`, yet the emitted foreign-key column is the
parent array's key `a_x` referencing `orders_a` — not the root binding
(which would be column `id` referencing `orders`). -/
theorem c3_counterexample :
    fkSection "orders" nestedSelected
      [("a", "a[].item.x"), ("a[].item.b", "a[].item.b[].item.y")]
      [("a[].item.b", ⟨"root", "Root table's key"⟩)]
      (build_table_hierarchy nestedPaths nestedSelected).array_tables
      (build_table_hierarchy nestedPaths nestedSelected).root_table
      "id"
      (natural_key_col_name
        (build_table_hierarchy nestedPaths nestedSelected).root_table "id")
      "a[].item.b" =
      "  a_x VARCHAR(255) COMMENT 'Foreign key to orders_a',\n" ∧
    emitRootFK "orders"
      (build_table_hierarchy nestedPaths nestedSelected).root_table
      "id"
      (natural_key_col_name
        (build_table_hierarchy nestedPaths nestedSelected).root_table "id") =
      "  id VARCHAR(255) COMMENT 'Foreign key to orders',\n" ∧
    ("  a_x VARCHAR(255) COMMENT 'Foreign key to orders_a',\n" : String) ≠
      "  id VARCHAR(255) COMMENT 'Foreign key to orders',\n" := by
  rw [nestedPaths_eval]
  decide

theorem fieldsFold_filter (arrayNaturalKeys : List (String × String))
    (arrayPath akp : String)
    (hkey : List.lookup arrayPath arrayNaturalKeys = some akp) :
    ∀ (fields : List PathInfo) (acc : String),
      fields.foldl
        (fun acc f =>
          if skip_as_key arrayNaturalKeys arrayPath f then acc
          else acc ++ field_line arrayPath f) acc =
      (fields.filter (fun f => !(f.path == akp))).foldl
        (fun acc f =>
          if skip_as_key arrayNaturalKeys arrayPath f then acc
          else acc ++ field_line arrayPath f) acc := by
  intro fields
  induction fields with
  | nil => intro acc; rfl
  | cons f rest ih =>
    intro acc
    rw [List.foldl_cons, List.filter_cons]
    by_cases hf : f.path = akp
    · rw [show skip_as_key arrayNaturalKeys arrayPath f = true from by
        simp [skip_as_key, hkey, hf]]
      rw [show (!(f.path == akp)) = false from by simp [hf]]
      simp only [if_true, Bool.false_eq_true, if_false]
      exact ih acc
    · rw [show skip_as_key arrayNaturalKeys arrayPath f = false from by
        simp [skip_as_key, hkey, hf]]
      rw [show (!(f.path == akp)) = true from by simp [hf]]
      simp only [Bool.false_eq_true, if_false, if_true, List.foldl_cons]
      rw [show skip_as_key arrayNaturalKeys arrayPath f = false from by
        simp [skip_as_key, hkey, hf]]
      simp only [Bool.false_eq_true, if_false]
      exact ih _

/-- C7: when the caller selected a natural key for an array TableGroup and
the key path matches a field of the group, the natural-key column is
emitted exactly once — as the single natural-key line — and the data-column
loop emits nothing for any field whose path is the key (dropping all such
fields leaves the data section unchanged). -/
theorem c7_key_exclusive (arrayNaturalKeys : List (String × String))
    (arrayPath : String) (fields : List PathInfo) (akp : String)
    (aki : PathInfo)
    (hkey : List.lookup arrayPath arrayNaturalKeys = some akp)
    (hfound : fields.find? (fun f => f.path == akp) = some aki) :
    natural_key_section arrayNaturalKeys arrayPath fields =
      "  " ++ get_column_name (strReplace akp (arrayPath ++ ".") "") ++ " " ++
      avro_to_hive_type aki ++ " COMMENT 'Natural key for this array',\n" ∧
    fields_section arrayNaturalKeys arrayPath fields =
      fields_section arrayNaturalKeys arrayPath
        (fields.filter (fun f => !(f.path == akp))) := by
  constructor
  · simp [natural_key_section, hkey, hfound]
  · unfold fields_section
    exact fieldsFold_filter arrayNaturalKeys arrayPath akp hkey fields ""

/-- C7 witness: a two-field group with key path `k` emits one natural-key
line, and removing the key field does not change the data section. -/
theorem c7_key_exclusive_witness :
    natural_key_section [("p", "k")] "p"
      [⟨"k", "string", "", false, .logical none⟩,
       ⟨"z", "string", "", false, .logical none⟩] =
      "  " ++ get_column_name (strReplace "k" ("p" ++ ".") "") ++ " " ++
      avro_to_hive_type ⟨"k", "string", "", false, .logical none⟩ ++
      " COMMENT 'Natural key for this array',\n" ∧
    fields_section [("p", "k")] "p"
      [⟨"k", "string", "", false, .logical none⟩,
       ⟨"z", "string", "", false, .logical none⟩] =
      fields_section [("p", "k")] "p"
        (([⟨"k", "string", "", false, .logical none⟩,
           ⟨"z", "string", "", false, .logical none⟩] : List PathInfo).filter
          (fun f => !(f.path == "k"))) :=
  c7_key_exclusive [("p", "k")] "p"
    [⟨"k", "string", "", false, .logical none⟩,
     ⟨"z", "string", "", false, .logical none⟩] "k"
    ⟨"k", "string", "", false, .logical none⟩ (by decide) (by decide)

end DdlEnriched
